import Mathlib

/-!
# Verification of the YATWA iCal feed engine (`ICalService`)

Shallow embedding of `backend/src/services/ical.ts` (`ICalService`):
calendar feed generation, escaping, icon→category/priority mapping,
statistics, and structural validation.

Modelling conventions:
* Strings are `List Char`; `chars s` converts a Lean string literal.
  The generated feed document is one `List Char` (the `.join` with CRLF plus trailing CRLF
  of the source, see `docOf`).
* The database delivers `event_date` as a `"YYYY-MM-DD"` string and
  `event_time` as `"HH:MM:SS" | null` (see `models/Event.ts`); we model them
  structurally (`EDate`, `ETime`) together with their canonical renderings
  (`isoDate`, `timeStr`), which is what the service code manipulates.
* JavaScript `Date` arithmetic (`setDate(getDate()+1)`,
  `setUTCDate(getUTCDate()+1)`, `getTime() + 3600000`) is modelled on the
  structural values, assuming the server clock's zone equals the zone the
  values are expressed in, so that the local getters used by `formatDate` /
  `formatDateTime` read back the same calendar components. Under that
  assumption both all-day branches of `generateEvent` reduce to the calendar
  successor `nextDay`.
* Each `new Date()` call is a read of an external clock; `generateCalendar`
  reads it once at the top (unused) and once per event (for `DTSTAMP`), which
  we model by an explicit clock oracle `Nat → EDateTime` consumed in call
  order (`generateCalendarClocked`).
-/

set_option maxRecDepth 100000

namespace ICal

/-- Characters of a string literal. -/
def chars (s : String) : List Char := s.data

/-! ## Dates and times -/

/-- A calendar date, the structural content of a `"YYYY-MM-DD"` string. -/
structure EDate where
  year : Nat
  month : Nat
  day : Nat
deriving DecidableEq, Repr

/-- A time of day, the structural content of a `"HH:MM:SS"` string. -/
structure ETime where
  hour : Nat
  minute : Nat
  second : Nat
deriving DecidableEq, Repr

/-- A timestamp (JavaScript `Date`), as its calendar components. -/
structure EDateTime where
  date : EDate
  time : ETime
deriving DecidableEq, Repr

/-- Gregorian leap-year rule, as implemented by the JavaScript `Date` object. -/
def isLeap (y : Nat) : Bool :=
  (y % 4 == 0 && y % 100 != 0) || y % 400 == 0

/-- Days in a month of the proleptic Gregorian calendar (months 1..12). -/
def daysInMonth (y m : Nat) : Nat :=
  if m = 2 then (if isLeap y then 29 else 28)
  else if m = 4 ∨ m = 6 ∨ m = 9 ∨ m = 11 then 30
  else 31

/-- The date is a real calendar date (spec §6: inputs are normalized). -/
def validDate (d : EDate) : Prop :=
  1 ≤ d.month ∧ d.month ≤ 12 ∧ 1 ≤ d.day ∧ d.day ≤ daysInMonth d.year d.month

instance (d : EDate) : Decidable (validDate d) := by
  unfold validDate; infer_instance

/-- Model of `nextDayDate.setDate(nextDayDate.getDate() + 1)` /
`setUTCDate(getUTCDate() + 1)` of `ICalService.generateEvent`: JavaScript
normalizes day-of-month overflow to the next month (and year), which on
valid dates is the calendar successor. -/
def nextDay (d : EDate) : EDate :=
  if d.day + 1 ≤ daysInMonth d.year d.month then ⟨d.year, d.month, d.day + 1⟩
  else if d.month + 1 ≤ 12 then ⟨d.year, d.month + 1, 1⟩
  else ⟨d.year + 1, 1, 1⟩

/-- Model of `new Date(eventDateTime.getTime() + 60 * 60 * 1000)` of
`ICalService.generateEvent` (default 1-hour duration), on calendar
components. -/
def addOneHour (dt : EDateTime) : EDateTime :=
  if dt.time.hour + 1 ≤ 23 then ⟨dt.date, ⟨dt.time.hour + 1, dt.time.minute, dt.time.second⟩⟩
  else ⟨nextDay dt.date, ⟨0, dt.time.minute, dt.time.second⟩⟩

/-! ## Decimal rendering (JavaScript template interpolation / `padStart`) -/

/-- Decimal digits of `n` (JavaScript `String(n)` for a natural number). -/
def natChars (n : Nat) : List Char := Nat.toDigits 10 n

/-- Model of `String(n).padStart(2, '0')` of `ICalService.formatDate` /
`formatDateTime`. -/
def pad2 (n : Nat) : List Char :=
  if n < 10 then '0' :: natChars n else natChars n

/-- The `"YYYY-MM-DD"` rendering of a date (the string stored in the
database column, also `Date.toISOString().split('T')[0]`). -/
def isoDate (d : EDate) : List Char :=
  natChars d.year ++ ('-' :: (pad2 d.month ++ ('-' :: pad2 d.day)))

/-- The `"HH:MM:SS"` rendering of a time of day (the `event_time` column). -/
def timeStr (t : ETime) : List Char :=
  pad2 t.hour ++ (':' :: (pad2 t.minute ++ (':' :: pad2 t.second)))

/-- Model of `ICalService.formatDate`: renders the date as `YYYY-MM-DD` and strips the
dashes (the global `replace` of every dash by the empty string). -/
def formatDate (d : EDate) : List Char :=
  (isoDate d).filter (fun c => c ≠ '-')

/-- Model of `ICalService.formatDateTime`: renders `YYYYMMDDTHHMMSS`, with a trailing `Z`
when `utc` is true. -/
def formatDateTime (dt : EDateTime) (utc : Bool) : List Char :=
  natChars dt.date.year ++ (pad2 dt.date.month ++ (pad2 dt.date.day ++
    ('T' :: (pad2 dt.time.hour ++ (pad2 dt.time.minute ++ (pad2 dt.time.second ++
      (if utc then ['Z'] else [])))))))

/-- Model of `ICalService.combineDateTime`: a `new Date(dateString + 'T' + timeString)`
interpreted in the server's zone; structurally it pairs the components. -/
def combineDateTime (d : EDate) (t : ETime) : EDateTime := ⟨d, t⟩

/-! ## Event records (`models/Event.ts`) -/

/-- One event record as handed to the service (`Event` interface):
`event_time = none` means an all-day event; `description` may be absent
(`null`). -/
structure Event where
  id : Nat
  title : List Char
  event_date : EDate
  event_time : Option ETime
  icon : List Char
  description : Option (List Char)
  created_at : EDateTime
  updated_at : EDateTime
deriving DecidableEq

/-! ## Configuration (`ICalConfig` and the constructor) -/

/-- The `ICalConfig` interface. -/
structure ICalConfig where
  prodId : List Char
  calName : List Char
  calDescription : List Char
  timezone : List Char
  url : List Char

/-- The constructor defaults (with `process.env.APP_URL` unset, so
`url = 'http://localhost'`). -/
def defaultConfig : ICalConfig :=
  { prodId := chars "-//YATWA//Yet Another Trash Web App//EN"
  , calName := chars "YATWA Calendar"
  , calDescription := chars "Personal calendar from YATWA - Yet Another Trash Web App"
  , timezone := chars "Europe/Berlin"
  , url := chars "http://localhost" }

/-- An optional constructor argument, field-wise optional
(TypeScript `Partial<ICalConfig>` with defined values). -/
structure CustomConfig where
  prodId : Option (List Char) := none
  calName : Option (List Char) := none
  calDescription : Option (List Char) := none
  timezone : Option (List Char) := none
  url : Option (List Char) := none

/-- The `ICalService` constructor: spread-merges the defaults with the
custom configuration (`{ ...defaults, ...customConfig }`).  It performs no
validation and cannot fail. -/
def mkConfig (c : CustomConfig) : ICalConfig :=
  { prodId := c.prodId.getD defaultConfig.prodId
  , calName := c.calName.getD defaultConfig.calName
  , calDescription := c.calDescription.getD defaultConfig.calDescription
  , timezone := c.timezone.getD defaultConfig.timezone
  , url := c.url.getD defaultConfig.url }

/-! ## Text escaping (`ICalService.escapeText`) -/

/-- Model of `String.prototype.replace` with a single-character global pattern:
every occurrence of `c` is replaced by `r`. -/
def replaceChar (c : Char) (r : List Char) : List Char → List Char
  | [] => []
  | x :: xs => if x = c then r ++ replaceChar c r xs else x :: replaceChar c r xs

/-- Model of `ICalService.escapeText`: backslash first, then semicolon, comma,
newline, carriage-return removal, then `.substring(0, 1000)`. -/
def escapeText (t : List Char) : List Char :=
  (replaceChar '\r' []
    (replaceChar '\n' ['\\', 'n']
      (replaceChar ',' ['\\', ',']
        (replaceChar ';' ['\\', ';']
          (replaceChar '\\' ['\\', '\\'] t))))).take 1000

/-! ## Icon mappings -/

/-- The `categoryMap` lookup table of `ICalService.iconToCategory`. -/
def categoryMap : List (List Char × List Char) :=
  [ (chars "work", chars "BUSINESS")
  , (chars "meeting", chars "MEETING")
  , (chars "birthday", chars "PERSONAL")
  , (chars "anniversary", chars "PERSONAL")
  , (chars "personal", chars "PERSONAL")
  , (chars "family", chars "PERSONAL")
  , (chars "friends", chars "PERSONAL")
  , (chars "health", chars "PERSONAL")
  , (chars "travel", chars "VACATION")
  , (chars "vacation", chars "VACATION")
  , (chars "education", chars "EDUCATION")
  , (chars "sports", chars "PERSONAL")
  , (chars "entertainment", chars "PERSONAL")
  , (chars "shopping", chars "PERSONAL")
  , (chars "project", chars "BUSINESS")
  , (chars "task", chars "BUSINESS")
  , (chars "deadline", chars "BUSINESS")
  , (chars "conference", chars "MEETING")
  , (chars "appointment", chars "APPOINTMENT")
  , (chars "reminder", chars "PERSONAL")
  , (chars "important", chars "BUSINESS")
  , (chars "party", chars "PERSONAL")
  , (chars "event", chars "PERSONAL") ]

/-- Model of `ICalService.iconToCategory`: the `categoryMap[icon] || 'PERSONAL'` lookup
(no mapped value is the empty string, so `||` is the `none` fallback). -/
def iconToCategory (icon : List Char) : List Char :=
  (categoryMap.lookup icon).getD (chars "PERSONAL")

/-- Model of `ICalService.iconToPriority`: 1 for the high-priority icons, 9 for the
low-priority ones, else 5. -/
def iconToPriority (icon : List Char) : Nat :=
  if [chars "important", chars "deadline", chars "work", chars "meeting",
      chars "appointment"].contains icon then 1
  else if [chars "entertainment", chars "shopping", chars "party"].contains icon then 9
  else 5

/-! ## Feed generation -/

/-- Model of `ICalService.generateTimezone`: the fixed Europe/Berlin block. -/
def generateTimezone : List (List Char) :=
  [ chars "BEGIN:VTIMEZONE"
  , chars "TZID:Europe/Berlin"
  , chars "BEGIN:DAYLIGHT"
  , chars "TZOFFSETFROM:+0100"
  , chars "TZOFFSETTO:+0200"
  , chars "TZNAME:CEST"
  , chars "DTSTART:19700329T020000"
  , chars "RRULE:FREQ=YEARLY;BYMONTH=3;BYDAY=-1SU"
  , chars "END:DAYLIGHT"
  , chars "BEGIN:STANDARD"
  , chars "TZOFFSETFROM:+0200"
  , chars "TZOFFSETTO:+0100"
  , chars "TZNAME:CET"
  , chars "DTSTART:19701025T030000"
  , chars "RRULE:FREQ=YEARLY;BYMONTH=10;BYDAY=-1SU"
  , chars "END:STANDARD"
  , chars "END:VTIMEZONE" ]

/-- The `if (event.event_time)` branch of `generateEvent`: a timed event
gets zone-qualified start and start+1h end, an all-day event gets bare
dates with the exclusive next-day end. -/
def timeLines (eventDate : EDate) : Option ETime → List (List Char)
  | some t =>
    [ chars "DTSTART;TZID=Europe/Berlin:" ++
        formatDateTime (combineDateTime eventDate t) false
    , chars "DTEND;TZID=Europe/Berlin:" ++
        formatDateTime (addOneHour (combineDateTime eventDate t)) false ]
  | none =>
    [ chars "DTSTART;VALUE=DATE:" ++ formatDate eventDate
    , chars "DTEND;VALUE=DATE:" ++ formatDate (nextDay eventDate) ]

/-- The `if (event.description)` block of `generateEvent` (a `null` or
empty description is falsy and emits nothing). -/
def descLines : Option (List Char) → List (List Char)
  | some dsc => if dsc = [] then [] else [chars "DESCRIPTION:" ++ escapeText dsc]
  | none => []

/-- Model of `ICalService.generateEvent`: the lines of one `VEVENT` block, where
`now` is that call's `new Date()` reading. -/
def generateEvent (cfg : ICalConfig) (now : EDateTime) (e : Event)
    (userHash : List Char) : List (List Char) :=
  [ chars "BEGIN:VEVENT"
  , chars "UID:" ++ (natChars e.id ++ ('-' :: (userHash ++ chars "@yatwa.app")))
  , chars "DTSTAMP:" ++ formatDateTime now true
  , chars "CREATED:" ++ formatDateTime e.created_at true
  , chars "LAST-MODIFIED:" ++ formatDateTime e.updated_at true ]
  ++ timeLines e.event_date e.event_time
  ++ [ chars "SUMMARY:" ++ escapeText e.title ]
  ++ descLines e.description
  ++ (if iconToCategory e.icon = [] then []
      else [chars "CATEGORIES:" ++ iconToCategory e.icon])
  ++ [ chars "PRIORITY:" ++ natChars (iconToPriority e.icon)
  , chars "STATUS:CONFIRMED"
  , chars "TRANSP:OPAQUE"
  , chars "CLASS:PRIVATE"
  , chars "SEQUENCE:0"
  , chars "URL:" ++ (cfg.url ++ ('?' :: (chars "hash=" ++ userHash)))
  , chars "X-YATWA-ICON:" ++ e.icon
  , chars "X-YATWA-ID:" ++ natChars e.id
  , chars "END:VEVENT" ]

/-- The `events.forEach` loop of `generateCalendar`: event `i` (0-based)
consumes the clock reading `start + i`. -/
def genEvents (cfg : ICalConfig) (clock : Nat → EDateTime) (userHash : List Char) :
    Nat → List Event → List (List Char)
  | _, [] => []
  | i, e :: rest =>
    generateEvent cfg (clock i) e userHash ++ genEvents cfg clock userHash (i + 1) rest

/-- The `calendarLines` array of `ICalService.generateCalendar`.
Clock reading 0 is the method's own (unused) `const now = new Date()`;
event `i` then reads the clock at `i + 1`. -/
def generateCalendarLines (cfg : ICalConfig) (clock : Nat → EDateTime)
    (events : List Event) (userHash : List Char) : List (List Char) :=
  [ chars "BEGIN:VCALENDAR"
  , chars "VERSION:2.0"
  , chars "PRODID:" ++ cfg.prodId
  , chars "CALSCALE:GREGORIAN"
  , chars "METHOD:PUBLISH"
  , chars "X-WR-CALNAME:" ++ (cfg.calName ++ (' ' :: ('-' :: (' ' :: userHash.take 8))))
  , chars "X-WR-CALDESC:" ++ cfg.calDescription
  , chars "X-WR-TIMEZONE:" ++ cfg.timezone
  , chars "X-PUBLISHED-TTL:PT1H"
  , chars "URL:" ++ (cfg.url ++ (chars "/api/ical/" ++ userHash))
  , chars "REFRESH-INTERVAL;VALUE=DURATION:PT1H"
  , chars "X-WR-RELCALID:" ++ userHash ]
  ++ generateTimezone
  ++ genEvents cfg clock userHash 1 events
  ++ [chars "END:VCALENDAR"]

/-- The CRLF `Array.prototype.join` used by `generateCalendar`. -/
def joinCRLF : List (List Char) → List Char
  | [] => []
  | [l] => l
  | l :: ls => l ++ ('\r' :: ('\n' :: joinCRLF ls))

/-- The joined calendar lines plus the trailing CRLF: the final document text. -/
def docOf (lines : List (List Char)) : List Char :=
  joinCRLF lines ++ ['\r', '\n']

/-- Model of `ICalService.generateCalendar` with an explicit clock oracle. -/
def generateCalendarClocked (cfg : ICalConfig) (clock : Nat → EDateTime)
    (events : List Event) (userHash : List Char) : List Char :=
  docOf (generateCalendarLines cfg clock events userHash)

/-- Model of `ICalService.generateCalendar` under a frozen clock reading `now`. -/
def generateCalendar (cfg : ICalConfig) (now : EDateTime) (events : List Event)
    (userHash : List Char) : List Char :=
  generateCalendarClocked cfg (fun _ => now) events userHash

/-! ## Statistics (`ICalService.generateStats`) -/

/-- Code-unit lexicographic comparison of strings: the effect of both
JavaScript `<=`/`>=` on strings and `localeCompare` on the ASCII date and
time strings compared here. -/
def strCmp : List Char → List Char → Ordering
  | [], [] => .eq
  | [], _ :: _ => .lt
  | _ :: _, [] => .gt
  | a :: as, b :: bs =>
    if a.toNat < b.toNat then .lt
    else if b.toNat < a.toNat then .gt
    else strCmp as bs

/-- The `YYYY-MM-DD` string the stats code derives for an event
(`String(event.event_date)` / `toISOString().split('T')[0]`). -/
def dateStr (e : Event) : List Char := isoDate e.event_date

/-- Model of `event.event_time || '00:00:00'` as used by the sort comparator. -/
def timeOrMidnight (e : Event) : List Char :=
  match e.event_time with
  | some t => timeStr t
  | none => chars "00:00:00"

/-- The sort comparator of `generateStats` (date `localeCompare`, then
time-of-day `localeCompare`), as an `Ordering`. -/
def eventCmp (a b : Event) : Ordering :=
  match strCmp (dateStr a) (dateStr b) with
  | .eq => strCmp (timeOrMidnight a) (timeOrMidnight b)
  | o => o

/-- Whether `a` may be placed before `b` by the comparator-driven (stable) sort. -/
def eventLe (a b : Event) : Bool :=
  match eventCmp a b with
  | .gt => false
  | _ => true

/-- The upcoming-filter predicate: `eventDate >= today` on the date
strings. -/
def isUpcoming (today : List Char) (e : Event) : Bool :=
  match strCmp (dateStr e) today with
  | .lt => false
  | _ => true

/-- One step of the `eventsByCategory` object accumulation:
`eventsByCategory[category] = (eventsByCategory[category] || 0) + 1`,
keys kept in first-insertion order. -/
def bumpCategory (k : List Char) : List (List Char × Nat) → List (List Char × Nat)
  | [] => [(k, 1)]
  | (k', n) :: rest => if k' = k then (k', n + 1) :: rest else (k', n) :: bumpCategory k rest

/-- The result record of `ICalService.generateStats`. -/
structure CalendarStats where
  totalEvents : Nat
  upcomingEvents : Nat
  eventsByCategory : List (List Char × Nat)
  nextEvent : Option Event

/-- Model of `ICalService.generateStats`, where `today` is the
`now.toISOString().split('T')[0]` reading of the current date.  The source
sorts the upcoming events with `Array.prototype.sort` (stable) under the
comparator `eventCmp` and takes element 0 (`|| null`). -/
def generateStats (today : List Char) (events : List Event) : CalendarStats :=
  let upcoming := events.filter (isUpcoming today)
  { totalEvents := events.length
  , upcomingEvents := upcoming.length
  , eventsByCategory :=
      events.foldl (fun acc e => bumpCategory (iconToCategory e.icon) acc) []
  , nextEvent := (upcoming.mergeSort eventLe).head? }

/-! ## Validation (`ICalService.validateCalendar`) -/

/-- Model of `String.prototype.includes`: the substring test. -/
def containsSub (p : List Char) : List Char → Bool
  | [] => p.isPrefixOf ([] : List Char)
  | c :: rest => p.isPrefixOf (c :: rest) || containsSub p rest

/-- Number of positions at which `p` occurs in `l`.  This is the count of
the source's `(icalContent.match(/BEGIN:VEVENT/g) || []).length`: the regex
counts non-overlapping occurrences, and for the two borderless patterns
`BEGIN:VEVENT` / `END:VEVENT` no two occurrences can overlap, so the
position count coincides (`countRe_eq_countOcc` below makes this formal). -/
def countOcc (p : List Char) : List Char → Nat
  | [] => 0
  | c :: rest => (if p.isPrefixOf (c :: rest) then 1 else 0) + countOcc p rest

/-- Non-overlapping occurrence count: the literal semantics of a global
regex match, consuming the matched text (`String.match(/…/g).length`). -/
def countRe (p : List Char) (l : List Char) : Nat :=
  if _hp : p = [] then 0 else
  match l with
  | [] => 0
  | c :: rest =>
    if p.isPrefixOf (c :: rest) then 1 + countRe p (rest.drop (p.length - 1))
    else countRe p rest
termination_by l.length
decreasing_by
  · simp only [List.length_cons, List.length_drop]
    omega
  · simp

/-- Model of `String.prototype.split('\n')` (an accumulator-reversing scan). -/
def splitNl (acc : List Char) : List Char → List (List Char)
  | [] => [acc.reverse]
  | c :: rest => if c = '\n' then acc.reverse :: splitNl [] rest else splitNl (c :: acc) rest

/-- The line-length warning pass (`lines.forEach`), `i` the 0-based index. -/
def warnLong (i : Nat) : List (List Char) → List (List Char)
  | [] => []
  | l :: rest =>
    (if 75 < l.length then
      [chars "Line " ++ (natChars (i + 1) ++ (chars " exceeds 75 characters (" ++
        (natChars l.length ++ [')'])))]
     else []) ++ warnLong (i + 1) rest

/-- The result record of `ICalService.validateCalendar`. -/
structure ValidationReport where
  isValid : Bool
  errors : List (List Char)
  warnings : List (List Char)

/-- Model of `ICalService.validateCalendar`: structure checks producing errors, the
75-character soft limit producing warnings, `isValid := errors.length === 0`. -/
def validateCalendar (icalContent : List Char) : ValidationReport :=
  let errors : List (List Char) :=
    (if containsSub (chars "BEGIN:VCALENDAR") icalContent then []
     else [chars "Missing VCALENDAR begin"])
    ++ (if containsSub (chars "END:VCALENDAR") icalContent then []
        else [chars "Missing VCALENDAR end"])
    ++ (if containsSub (chars "VERSION:2.0") icalContent then []
        else [chars "Missing or invalid VERSION"])
    ++ (if containsSub (chars "PRODID:") icalContent then []
        else [chars "Missing PRODID"])
    ++ (let b := countOcc (chars "BEGIN:VEVENT") icalContent
        let e := countOcc (chars "END:VEVENT") icalContent
        if b = e then []
        else [chars "Mismatched VEVENT tags: " ++ (natChars b ++ (chars " begin, " ++
          (natChars e ++ chars " end")))])
  let warnings := warnLong 0 (splitNl [] icalContent)
  { isValid := errors.length == 0, errors := errors, warnings := warnings }

/-! ## Generic lemmas about substring occurrence and counting

Proof infrastructure: none of the definitions below model source code; they
let us reason about `containsSub` / `countOcc` applied to the generated
document. -/

theorem isPrefixOf_nil_iff {s : List Char} : s.isPrefixOf ([] : List Char) = true ↔ s = [] := by
  cases s <;> simp [List.isPrefixOf]

theorem containsSub_iff (p l : List Char) :
    containsSub p l = true ↔ ∃ i, p.isPrefixOf (l.drop i) = true := by
  induction l with
  | nil =>
    simp only [containsSub]
    exact ⟨fun h => ⟨0, by simpa using h⟩, fun ⟨i, hi⟩ => by simpa using hi⟩
  | cons c rest ih =>
    simp only [containsSub, Bool.or_eq_true, ih]
    constructor
    · rintro (h | ⟨i, hi⟩)
      · exact ⟨0, h⟩
      · exact ⟨i + 1, hi⟩
    · rintro ⟨i, hi⟩
      cases i with
      | zero => exact Or.inl hi
      | succ j => exact Or.inr ⟨j, hi⟩

theorem containsSub_of_isPrefixOf {p l : List Char} (h : p.isPrefixOf l = true) :
    containsSub p l = true :=
  (containsSub_iff p l).2 ⟨0, by simpa using h⟩

theorem containsSub_of_start {p l : List Char} (h : p <+: l) : containsSub p l = true :=
  containsSub_of_isPrefixOf (List.isPrefixOf_iff_prefix.2 h)

theorem containsSub_of_take {p l : List Char} {n : Nat}
    (h : containsSub p (l.take n) = true) : containsSub p l = true := by
  rcases (containsSub_iff p (l.take n)).1 h with ⟨i, hi⟩
  refine (containsSub_iff p l).2 ⟨i, List.isPrefixOf_iff_prefix.2 ?_⟩
  have hp : p <+: (l.take n).drop i := List.isPrefixOf_iff_prefix.1 hi
  rw [List.drop_take] at hp
  exact hp.trans (List.take_prefix _ _)

theorem containsSub_of_drop {p l : List Char} {n : Nat}
    (h : containsSub p (l.drop n) = true) : containsSub p l = true := by
  rcases (containsSub_iff p (l.drop n)).1 h with ⟨i, hi⟩
  rw [List.drop_drop] at hi
  exact (containsSub_iff p l).2 ⟨n + i, hi⟩

theorem containsSub_nil_left : ∀ l : List Char, containsSub [] l = true
  | [] => rfl
  | _ :: rest => by simp [containsSub, List.isPrefixOf]

theorem containsSub_append_left {p a b : List Char} (h : containsSub p a = true) :
    containsSub p (a ++ b) = true := by
  induction a with
  | nil =>
    cases (isPrefixOf_nil_iff.1 (by simpa [containsSub] using h))
    exact containsSub_nil_left b
  | cons x a' ih =>
    simp only [containsSub, Bool.or_eq_true] at h ⊢
    rcases h with h | h
    · exact Or.inl (List.isPrefixOf_iff_prefix.2
        ((List.isPrefixOf_iff_prefix.1 h).trans (List.prefix_append _ _)))
    · exact Or.inr (ih h)

theorem containsSub_append_right {p a b : List Char} (h : containsSub p b = true) :
    containsSub p (a ++ b) = true := by
  induction a with
  | nil => simpa using h
  | cons x a' ih => simp only [containsSub, Bool.or_eq_true]; exact Or.inr ih

theorem head_mem_of_isPrefixOf {p l : List Char} (hp : p ≠ []) (h : p.isPrefixOf l = true) :
    ∃ x, p.head? = some x ∧ l.head? = some x := by
  cases p with
  | nil => exact absurd rfl hp
  | cons ph pt =>
    cases l with
    | nil => simp [List.isPrefixOf] at h
    | cons c rest =>
      simp only [List.isPrefixOf, Bool.and_eq_true, beq_iff_eq] at h
      exact ⟨c, by simp [h.1], by simp⟩

theorem countOcc_nil (p : List Char) : countOcc p [] = 0 := rfl

theorem countOcc_cons (p : List Char) (c : Char) (l : List Char) :
    countOcc p (c :: l) = (if p.isPrefixOf (c :: l) = true then 1 else 0) + countOcc p l := by
  simp [countOcc]

theorem countOcc_cons_of_no_match {p : List Char} {c : Char} {l : List Char}
    (h : p.isPrefixOf (c :: l) = false) : countOcc p (c :: l) = countOcc p l := by
  simp [countOcc, h]

/-- A character list with none of its members equal to the head of `p`
contributes no occurrence positions. -/
theorem countOcc_head_strip {p : List Char} (t : List Char) {b : List Char} (hp : p ≠ [])
    (ht : ∀ x ∈ t, ¬ p.head? = some x) : countOcc p (t ++ b) = countOcc p b := by
  induction t with
  | nil => rfl
  | cons x t' ih =>
    have hx : p.isPrefixOf (x :: (t' ++ b)) = false := by
      cases hpre : p.isPrefixOf (x :: (t' ++ b)) with
      | false => rfl
      | true =>
        exfalso
        rcases head_mem_of_isPrefixOf hp hpre with ⟨y, hy, hl⟩
        simp only [List.head?_cons, Option.some.injEq] at hl
        exact ht x (by simp) (hl ▸ hy)
    rw [List.cons_append, countOcc_cons_of_no_match hx]
    exact ih (fun x hx => ht x (by simp [hx]))

theorem countOcc_eq_zero_of_head_notin {p : List Char} (l : List Char) (hp : p ≠ [])
    (h : ∀ x ∈ l, ¬ p.head? = some x) : countOcc p l = 0 := by
  have := countOcc_head_strip (p := p) l (b := []) hp h
  simpa using this

/-- If `p` is a prefix of `x ++ b`, it agrees with `x` on their overlap. -/
theorem zip_eq_of_isPrefixOf :
    ∀ (p x : List Char) {b : List Char}, p.isPrefixOf (x ++ b) = true →
      ∀ q ∈ p.zip x, q.1 = q.2
  | [], _, _, _ => by simp
  | _ :: _, [], _, _ => by simp
  | ph :: pt, xh :: xt, b, h => by
    simp only [List.cons_append, List.isPrefixOf, Bool.and_eq_true, beq_iff_eq] at h
    intro q hq
    simp only [List.zip_cons_cons, List.mem_cons] at hq
    rcases hq with rfl | hq
    · exact h.1
    · exact zip_eq_of_isPrefixOf pt xt h.2 q hq

theorem not_isPrefixOf_of_zip_mismatch {s cfix rest : List Char}
    (h : ∃ q ∈ s.zip cfix, ¬ q.1 = q.2) : s.isPrefixOf (cfix ++ rest) = false := by
  rcases h with ⟨q, hq, hne⟩
  cases hpre : s.isPrefixOf (cfix ++ rest) with
  | false => rfl
  | true => exact absurd (zip_eq_of_isPrefixOf s cfix hpre q hq) hne

/-- Every candidate start position inside `a` is refuted by a character
mismatch that happens inside `a` itself (so no occurrence of `p` can start
in `a`, whatever follows it). Decidable for concrete `p`, `a`. -/
def killsAll (p a : List Char) : Bool :=
  (List.range a.length).all (fun i => (p.zip (a.drop i)).any (fun q => !(q.1 == q.2)))

theorem countOcc_fixed_strip {p : List Char} (a : List Char) {b : List Char}
    (h : killsAll p a = true) : countOcc p (a ++ b) = countOcc p b := by
  induction a with
  | nil => rfl
  | cons x a' ih =>
    have h0 : (p.zip (x :: a')).any (fun q => !(q.1 == q.2)) = true := by
      have h0' := List.all_eq_true.1 h 0 (by simp [List.mem_range])
      rw [List.drop_zero] at h0'
      exact h0'
    have hx : p.isPrefixOf ((x :: a') ++ b) = false := by
      apply not_isPrefixOf_of_zip_mismatch
      rcases List.any_eq_true.1 h0 with ⟨q, hq, hne⟩
      exact ⟨q, hq, by simpa using hne⟩
    have h' : killsAll p a' = true := by
      apply List.all_eq_true.2
      intro i hi
      have := List.all_eq_true.1 h (i + 1) (by simp [List.mem_range] at hi ⊢; omega)
      simpa using this
    rw [List.cons_append, countOcc_cons_of_no_match (by simpa using hx)]
    exact ih h'

/-- Every nonempty proper suffix of `p` fails to be a prefix of
`cfix ++ rest` because of a mismatch inside `cfix`. Decidable for concrete
`p`, `cfix`. -/
def suffixKilled (p cfix : List Char) : Bool :=
  (List.range p.length).all
    (fun k => (k == 0) || ((p.drop k).zip cfix).any (fun q => !(q.1 == q.2)))

theorem suffixKilled_spec {p cfix : List Char} (h : suffixKilled p cfix = true)
    (rest : List Char) :
    ∀ k, 0 < k → k < p.length → (p.drop k).isPrefixOf (cfix ++ rest) = false := by
  intro k hk hkp
  have := List.all_eq_true.1 h k (by simp [List.mem_range]; omega)
  simp only [Bool.or_eq_true, beq_iff_eq] at this
  rcases this with h0 | hmis
  · omega
  · apply not_isPrefixOf_of_zip_mismatch
    rcases List.any_eq_true.1 hmis with ⟨q, hq, hne⟩
    exact ⟨q, hq, by simpa using hne⟩

theorem not_isPrefixOf_nil_of_lt {p : List Char} {k : Nat} (hkp : k < p.length) :
    (p.drop k).isPrefixOf ([] : List Char) = false := by
  cases hpre : (p.drop k).isPrefixOf ([] : List Char) with
  | false => rfl
  | true =>
    exfalso
    have hnil : (p.drop k) = [] := isPrefixOf_nil_iff.1 hpre
    have : p.length - k = 0 := by simpa [List.length_drop] using congrArg List.length hnil
    omega

/-- No occurrence of `p` can start inside a field `f` when `f` avoids the
substring `v` (a suffix of `p`, e.g. `VEVENT`) and no nonempty proper suffix
of `p` starts the continuation `c`. -/
theorem countOcc_field_strip {p v : List Char} (f : List Char) {c : List Char}
    {off : Nat} (hoff : p.drop off = v) (_hv : v ≠ [])
    (hcf : containsSub v f = false)
    (hc : ∀ k, 0 < k → k < p.length → (p.drop k).isPrefixOf c = false) :
    countOcc p (f ++ c) = countOcc p c := by
  induction f with
  | nil => rfl
  | cons x f' ih =>
    have hcf' : containsSub v f' = false := by
      cases hcc : containsSub v f' with
      | false => rfl
      | true =>
        exfalso
        have hup : containsSub v (x :: f') = true := by
          simp [containsSub, hcc]
        rw [hup] at hcf; exact Bool.noConfusion hcf
    have hx : p.isPrefixOf (x :: (f' ++ c)) = false := by
      cases hpre : p.isPrefixOf (x :: (f' ++ c)) with
      | false => rfl
      | true =>
        exfalso
        have hpfx : p <+: (x :: f') ++ c := List.isPrefixOf_iff_prefix.1 hpre
        by_cases hlen : p.length ≤ (x :: f').length
        · -- the occurrence would land an occurrence of `v` inside `x :: f'`
          have hptake : p = (x :: f').take p.length := by
            have h1 := List.prefix_iff_eq_take.1 hpfx
            rwa [List.take_append_of_le_length hlen] at h1
          have hvtake : v = ((x :: f').drop off).take (p.length - off) := by
            have h1 : p.drop off = ((x :: f').take p.length).drop off :=
              congrArg (List.drop off) hptake
            rw [List.drop_take] at h1
            rw [← hoff, h1]
          have hvpfx : v <+: (x :: f').drop off := by
            rw [hvtake]; exact List.take_prefix _ _
          have hctr : containsSub v (x :: f') = true :=
            (containsSub_iff v (x :: f')).2 ⟨off, List.isPrefixOf_iff_prefix.2 hvpfx⟩
          rw [hctr] at hcf; exact Bool.noConfusion hcf
        · -- the occurrence would continue into `c` with a proper suffix of `p`
          push_neg at hlen
          have hptake : p = ((x :: f') ++ c).take p.length := List.prefix_iff_eq_take.1 hpfx
          have hsfx : p.drop (x :: f').length = c.take (p.length - (x :: f').length) := by
            have h1 : p.drop (x :: f').length =
                (((x :: f') ++ c).take p.length).drop (x :: f').length :=
              congrArg (List.drop (x :: f').length) hptake
            rw [List.drop_take, List.drop_append_of_le_length (Nat.le_refl _),
              List.drop_length, List.nil_append] at h1
            exact h1
          have hsp : (p.drop (x :: f').length).isPrefixOf c = true := by
            rw [hsfx]
            exact List.isPrefixOf_iff_prefix.2 (List.take_prefix _ _)
          have hdead := hc (x :: f').length (by simp) hlen
          rw [hdead] at hsp; exact Bool.noConfusion hsp
    show countOcc p (x :: (f' ++ c)) = _
    rw [countOcc_cons_of_no_match hx]
    exact ih hcf'

/-- Occurrences in `a ++ b` split cleanly when no occurrence can straddle
the boundary because `b`'s first character does not occur in `p`. -/
theorem countOcc_append_split {p : List Char} (a : List Char) {b : List Char}
    (hb : ∀ x, b.head? = some x → x ∉ p) :
    countOcc p (a ++ b) = countOcc p a + countOcc p b := by
  induction a with
  | nil => simp [countOcc_nil]
  | cons x a' ih =>
    have hiff : p.isPrefixOf (x :: (a' ++ b)) = p.isPrefixOf (x :: a') := by
      cases hr : p.isPrefixOf (x :: a') with
      | true =>
        exact List.isPrefixOf_iff_prefix.2
          ((List.isPrefixOf_iff_prefix.1 hr).trans (List.prefix_append _ _))
      | false =>
        cases hl : p.isPrefixOf (x :: (a' ++ b)) with
        | false => rfl
        | true =>
          exfalso
          have hpfx : p <+: (x :: a') ++ b := List.isPrefixOf_iff_prefix.1 hl
          by_cases hlen : p.length ≤ (x :: a').length
          · have hptake : p = (x :: a').take p.length := by
              have h1 := List.prefix_iff_eq_take.1 hpfx
              rwa [List.take_append_of_le_length hlen] at h1
            have hpr : p <+: (x :: a') := by rw [hptake]; exact List.take_prefix _ _
            rw [List.isPrefixOf_iff_prefix.2 hpr] at hr
            exact Bool.noConfusion hr
          · push_neg at hlen
            have hptake : p = ((x :: a') ++ b).take p.length := List.prefix_iff_eq_take.1 hpfx
            have hsfx : p.drop (x :: a').length = b.take (p.length - (x :: a').length) := by
              have h1 : p.drop (x :: a').length =
                  (((x :: a') ++ b).take p.length).drop (x :: a').length :=
                congrArg (List.drop (x :: a').length) hptake
              rw [List.drop_take, List.drop_append_of_le_length (Nat.le_refl _),
                List.drop_length, List.nil_append] at h1
              exact h1
            have hne : p.drop (x :: a').length ≠ [] := by
              intro hnil
              have hz : p.length - (x :: a').length = 0 := by
                simpa [List.length_drop] using congrArg List.length hnil
              omega
            rcases List.exists_cons_of_ne_nil hne with ⟨y, t, hyt⟩
            have hyp : y ∈ p := by
              have hym : y ∈ p.drop (x :: a').length := by rw [hyt]; simp
              exact List.mem_of_mem_drop hym
            have hyb : b.head? = some y := by
              have hbt : b.take (p.length - (x :: a').length) = y :: t := by rw [← hsfx, hyt]
              cases b with
              | nil => simp at hbt
              | cons bh bt =>
                cases hm : p.length - (x :: a').length with
                | zero => rw [hm] at hbt; simp at hbt
                | succ m =>
                  rw [hm] at hbt
                  simp only [List.take_succ_cons, List.cons.injEq] at hbt
                  simp [hbt.1]
            exact hb y hyb hyp
    show countOcc p (x :: (a' ++ b)) = _
    rw [countOcc_cons, countOcc_cons, hiff, ih]
    omega

/-- Summing occurrence counts over the joined document: since the patterns
contain neither CR nor LF, no occurrence can cross a line boundary. -/
theorem countOcc_docOf {p : List Char} (hp : p ≠ []) (hr : '\r' ∉ p) (hn : '\n' ∉ p) :
    ∀ lines : List (List Char), countOcc p (docOf lines) = (lines.map (countOcc p)).sum := by
  have hcrlf : ∀ l : List Char, countOcc p ('\r' :: ('\n' :: l)) = countOcc p l := by
    intro l
    have h1 : p.isPrefixOf ('\r' :: ('\n' :: l)) = false := by
      cases hpre : p.isPrefixOf ('\r' :: ('\n' :: l)) with
      | false => rfl
      | true =>
        exfalso
        rcases head_mem_of_isPrefixOf hp hpre with ⟨y, hy, hl⟩
        simp only [List.head?_cons, Option.some.injEq] at hl
        subst hl
        cases p with
        | nil => exact hp rfl
        | cons ph pt =>
          simp only [List.head?_cons, Option.some.injEq] at hy
          subst hy
          exact hr (by simp)
    have h2 : p.isPrefixOf ('\n' :: l) = false := by
      cases hpre : p.isPrefixOf ('\n' :: l) with
      | false => rfl
      | true =>
        exfalso
        rcases head_mem_of_isPrefixOf hp hpre with ⟨y, hy, hl⟩
        simp only [List.head?_cons, Option.some.injEq] at hl
        subst hl
        cases p with
        | nil => exact hp rfl
        | cons ph pt =>
          simp only [List.head?_cons, Option.some.injEq] at hy
          subst hy
          exact hn (by simp)
    rw [countOcc_cons_of_no_match h1, countOcc_cons_of_no_match h2]
  have hcrlf0 : countOcc p ['\r', '\n'] = 0 := by
    have := hcrlf []
    simpa [countOcc_nil] using this
  intro lines
  induction lines with
  | nil => simpa [docOf, joinCRLF] using hcrlf0
  | cons l ls ih =>
    cases ls with
    | nil =>
      show countOcc p (l ++ ['\r', '\n']) = _
      rw [countOcc_append_split l (by intro x hx; simp at hx; rw [← hx]; exact hr), hcrlf0]
      simp
    | cons l' ls' =>
      have hdoc : docOf (l :: l' :: ls') = l ++ ('\r' :: ('\n' :: docOf (l' :: ls'))) := by
        simp [docOf, joinCRLF, List.append_assoc]
      rw [hdoc, countOcc_append_split l
        (by intro x hx; simp at hx; rw [← hx]; exact hr), hcrlf, ih]
      simp

/-! ## The regex count agrees with the position count for borderless patterns -/

/-- No nonempty proper suffix of `p` is a prefix of `p` (`p` cannot overlap
itself); true of both `BEGIN:VEVENT` and `END:VEVENT`. -/
def noSelfOverlap (p : List Char) : Bool :=
  (List.range p.length).all (fun k => (k == 0) || !((p.drop k).isPrefixOf p))

theorem countOcc_drop_of_no_match (p : List Char) :
    ∀ (n : Nat) (l : List Char), (∀ j, j < n → p.isPrefixOf (l.drop j) = false) →
      countOcc p l = countOcc p (l.drop n) := by
  intro n
  induction n with
  | zero => intro l _; rfl
  | succ m ih =>
    intro l h
    cases l with
    | nil => simp
    | cons c rest =>
      have h0 : p.isPrefixOf (c :: rest) = false := by simpa using h 0 (Nat.succ_pos m)
      rw [countOcc_cons_of_no_match h0]
      have hrest := ih rest (fun j hj => by simpa using h (j + 1) (by omega))
      simpa using hrest

theorem countRe_eq_countOcc_aux {p : List Char} (hp : p ≠ [])
    (hb : noSelfOverlap p = true) :
    ∀ (n : Nat) (l : List Char), l.length ≤ n → countRe p l = countOcc p l := by
  intro n
  induction n with
  | zero =>
    intro l hl
    have : l = [] := List.length_eq_zero.1 (Nat.le_zero.1 hl)
    subst this
    rw [countRe, countOcc_nil]
    simp [hp]
  | succ m ih =>
    intro l hl
    cases l with
    | nil =>
      rw [countRe, countOcc_nil]; simp [hp]
    | cons c rest =>
      rw [countRe]
      simp only [hp, dite_false]
      cases hpre : p.isPrefixOf (c :: rest) with
      | false =>
        rw [if_neg (by simp [hpre]), countOcc_cons_of_no_match hpre]
        exact ih rest (by simpa using Nat.lt_succ_iff.1 (Nat.lt_of_lt_of_le (Nat.lt_succ_self _) hl))
      | true =>
        rw [if_pos (by simp [hpre]), countOcc_cons, if_pos (by simp [hpre])]
        have hre := ih (rest.drop (p.length - 1))
          (by
            have h1 : (rest.drop (p.length - 1)).length ≤ rest.length := by
              rw [List.length_drop]; omega
            have h2 : rest.length ≤ m := by simpa using Nat.succ_le_succ_iff.1 hl
            omega)
        rw [hre]
        have hnomatch : ∀ j, j < p.length - 1 → p.isPrefixOf (rest.drop j) = false := by
          intro j hj
          cases hmj : p.isPrefixOf (rest.drop j) with
          | false => rfl
          | true =>
            exfalso
            -- a second match this close would exhibit a self-overlap of `p`
            have hk := List.all_eq_true.1 hb (j + 1)
              (by simp only [List.mem_range]; omega)
            simp only [Bool.or_eq_true, beq_iff_eq, Bool.not_eq_true',
              Nat.succ_ne_zero, false_or] at hk
            -- from the first match: p = (c :: rest).take p.length
            have hptake : p = (c :: rest).take p.length := by
              rcases List.isPrefixOf_iff_prefix.1 hpre with ⟨t, ht⟩
              have := List.prefix_iff_eq_take.1 ⟨t, ht⟩
              exact this
            -- from the second match: rest.drop j = p ++ t'
            rcases List.isPrefixOf_iff_prefix.1 hmj with ⟨t', ht'⟩
            -- p.drop (j+1) is a prefix of p, contradiction
            have hd1 : p.drop (j + 1) = ((c :: rest).drop (j + 1)).take (p.length - (j + 1)) := by
              have h1 : p.drop (j + 1) = ((c :: rest).take p.length).drop (j + 1) :=
                congrArg (List.drop (j + 1)) hptake
              rw [List.drop_take] at h1
              exact h1
            have hd2 : (c :: rest).drop (j + 1) = rest.drop j := by simp
            have hd3 : p.drop (j + 1) = (p ++ t').take (p.length - (j + 1)) := by
              rw [hd1, hd2, ← ht']
            have hd4 : p.drop (j + 1) = p.take (p.length - (j + 1)) := by
              rw [hd3, List.take_append_of_le_length (by omega)]
            have hpfx : (p.drop (j + 1)).isPrefixOf p = true := by
              rw [hd4]
              exact List.isPrefixOf_iff_prefix.2 (List.take_prefix _ _)
            rw [hpfx] at hk
            exact Bool.noConfusion hk
        have hpeel := countOcc_drop_of_no_match p (p.length - 1) rest hnomatch
        omega

/-- For a pattern with no self-overlap (such as the two `VEVENT` markers),
the non-overlapping global-regex match count equals the position count used
in our model of `validateCalendar`. -/
theorem countRe_eq_countOcc {p : List Char} (hp : p ≠ []) (hb : noSelfOverlap p = true)
    (l : List Char) : countRe p l = countOcc p l :=
  countRe_eq_countOcc_aux hp hb l.length l (Nat.le_refl _)

/-! ## Character classes of the rendered numeric fields -/

theorem digitChar_isDigit : ∀ m : Nat, m < 10 → (Nat.digitChar m).isDigit = true := by
  intro m hm
  interval_cases m <;> decide

theorem toDigitsCore_mem :
    ∀ (fuel n : Nat) (acc : List Char), (∀ c ∈ acc, c.isDigit = true) →
      ∀ c ∈ Nat.toDigitsCore 10 fuel n acc, c.isDigit = true := by
  intro fuel
  induction fuel with
  | zero => intro n acc hacc c hc; exact hacc c hc
  | succ f ih =>
    intro n acc hacc c hc
    have hd : ∀ x ∈ (n % 10).digitChar :: acc, x.isDigit = true := by
      intro x hx
      rcases List.mem_cons.1 hx with rfl | hx
      · exact digitChar_isDigit _ (Nat.mod_lt _ (by omega))
      · exact hacc x hx
    rw [Nat.toDigitsCore] at hc
    by_cases hz : n / 10 = 0
    · rw [if_pos hz] at hc
      exact hd c hc
    · rw [if_neg hz] at hc
      exact ih (n / 10) _ hd c hc

theorem natChars_isDigit {n : Nat} {c : Char} (hc : c ∈ natChars n) : c.isDigit = true :=
  toDigitsCore_mem (n + 1) n [] (by simp) c hc

theorem pad2_isDigit {n : Nat} {c : Char} (hc : c ∈ pad2 n) : c.isDigit = true := by
  unfold pad2 at hc
  by_cases h : n < 10
  · rw [if_pos h] at hc
    rcases List.mem_cons.1 hc with rfl | hc
    · decide
    · exact natChars_isDigit hc
  · rw [if_neg h] at hc
    exact natChars_isDigit hc

/-- Characters that can appear in a `formatDateTime` rendering. -/
def dtChar (c : Char) : Prop := c.isDigit = true ∨ c = 'T' ∨ c = 'Z'

theorem formatDateTime_chars {dt : EDateTime} {u : Bool} {c : Char}
    (hc : c ∈ formatDateTime dt u) : dtChar c := by
  unfold formatDateTime at hc
  simp only [List.mem_append, List.mem_cons] at hc
  rcases hc with h | h | h | h | h | h | h
  · exact Or.inl (natChars_isDigit h)
  · exact Or.inl (pad2_isDigit h)
  · exact Or.inl (pad2_isDigit h)
  · exact Or.inr (Or.inl h)
  · exact Or.inl (pad2_isDigit h)
  · exact Or.inl (pad2_isDigit h)
  · rcases h with h | h
    · exact Or.inl (pad2_isDigit h)
    · cases u with
      | true =>
        simp at h
        exact Or.inr (Or.inr h)
      | false => simp at h

theorem isoDate_chars {d : EDate} {c : Char} (hc : c ∈ isoDate d) :
    c.isDigit = true ∨ c = '-' := by
  unfold isoDate at hc
  simp only [List.mem_append, List.mem_cons] at hc
  rcases hc with h | h | h | h | h
  · exact Or.inl (natChars_isDigit h)
  · exact Or.inr h
  · exact Or.inl (pad2_isDigit h)
  · exact Or.inr h
  · exact Or.inl (pad2_isDigit h)

theorem formatDate_isDigit {d : EDate} {c : Char} (hc : c ∈ formatDate d) :
    c.isDigit = true := by
  unfold formatDate at hc
  rcases List.mem_filter.1 hc with ⟨hmem, hne⟩
  rcases isoDate_chars hmem with h | h
  · exact h
  · subst h; simp at hne

/-! ## Totality of the icon mappings -/

theorem lookup_mem_snd {α β : Type} [BEq α] :
    ∀ {l : List (α × β)} {k : α} {v : β}, l.lookup k = some v → v ∈ l.map Prod.snd := by
  intro l
  induction l with
  | nil => intro k v h; simp [List.lookup] at h
  | cons kv rest ih =>
    intro k v h
    rcases kv with ⟨a, b⟩
    rw [List.lookup_cons] at h
    cases hk : k == a with
    | true =>
      rw [hk] at h
      simp only [Option.some.injEq] at h
      subst h
      simp
    | false =>
      rw [hk] at h
      simp only [List.map_cons, List.mem_cons]
      exact Or.inr (ih h)

/-- The fixed category vocabulary of the spec. -/
def categorySet : List (List Char) :=
  [chars "BUSINESS", chars "MEETING", chars "PERSONAL", chars "VACATION",
   chars "EDUCATION", chars "APPOINTMENT"]

theorem iconToCategory_mem (icon : List Char) : iconToCategory icon ∈ categorySet := by
  unfold iconToCategory
  cases h : categoryMap.lookup icon with
  | none =>
    simp only [Option.getD_none]
    decide
  | some v =>
    simp only [Option.getD_some]
    have hv := lookup_mem_snd h
    simp only [categoryMap, List.map_cons, List.map_nil, List.mem_cons,
      List.not_mem_nil, or_false] at hv
    rcases hv with rfl | rfl | rfl | rfl | rfl | rfl | rfl | rfl | rfl | rfl | rfl | rfl |
      rfl | rfl | rfl | rfl | rfl | rfl | rfl | rfl | rfl | rfl | rfl <;> decide

theorem iconToCategory_ne_nil (icon : List Char) : iconToCategory icon ≠ [] := by
  have h := iconToCategory_mem icon
  simp only [categorySet, List.mem_cons, List.not_mem_nil, or_false] at h
  rcases h with h | h | h | h | h | h <;> rw [h] <;> decide

theorem iconToPriority_mem (icon : List Char) :
    iconToPriority icon = 1 ∨ iconToPriority icon = 5 ∨ iconToPriority icon = 9 := by
  unfold iconToPriority
  split
  · exact Or.inl rfl
  · split
    · exact Or.inr (Or.inr rfl)
    · exact Or.inr (Or.inl rfl)

/-! ## Counting the VEVENT markers in generated documents -/

/-- The two block markers counted by `validateCalendar`. -/
def isMarker (p : List Char) : Prop :=
  p = chars "BEGIN:VEVENT" ∨ p = chars "END:VEVENT"

/-- The string avoids the marker fragment `VEVENT` (decidable per value).
Raw text containing this fragment can spoof the validator's marker counts
(see the corrected claims below); everything else is harmless. -/
def noVev (s : List Char) : Bool := !(containsSub (chars "VEVENT") s)

/-- All raw text of one event is free of the `VEVENT` fragment, measured on
the escaped fields exactly as they are inserted into the document. -/
def eventSafe (e : Event) : Bool :=
  noVev (escapeText e.title) &&
  ((match e.description with
    | some d => noVev (escapeText d)
    | none => true) &&
  noVev e.icon)

theorem marker_ne_nil {p : List Char} (hm : isMarker p) : p ≠ [] := by
  rcases hm with rfl | rfl <;> decide

theorem marker_not_cr {p : List Char} (hm : isMarker p) : '\r' ∉ p := by
  rcases hm with rfl | rfl <;> decide

theorem marker_not_lf {p : List Char} (hm : isMarker p) : '\n' ∉ p := by
  rcases hm with rfl | rfl <;> decide

theorem marker_head {p : List Char} (hm : isMarker p) :
    ∀ x, p.head? = some x → x = 'B' ∨ x = 'E' := by
  rcases hm with rfl | rfl
  · intro x hx
    have hB : (chars "BEGIN:VEVENT").head? = some 'B' := rfl
    rw [hB] at hx
    exact Or.inl (Option.some.inj hx).symm
  · intro x hx
    have hE : (chars "END:VEVENT").head? = some 'E' := rfl
    rw [hE] at hx
    exact Or.inr (Option.some.inj hx).symm

theorem vev_suffix {p : List Char} (hm : isMarker p) :
    ∃ off, p.drop off = chars "VEVENT" := by
  rcases hm with rfl | rfl
  · exact ⟨6, by decide⟩
  · exact ⟨4, by decide⟩

theorem marker_killsAll {p : List Char} (hm : isMarker p) {a : List Char}
    (h1 : killsAll (chars "BEGIN:VEVENT") a = true)
    (h2 : killsAll (chars "END:VEVENT") a = true) : killsAll p a = true := by
  rcases hm with rfl | rfl
  · exact h1
  · exact h2

theorem marker_suffixKilled {p : List Char} (hm : isMarker p) {cfix : List Char}
    (h1 : suffixKilled (chars "BEGIN:VEVENT") cfix = true)
    (h2 : suffixKilled (chars "END:VEVENT") cfix = true) : suffixKilled p cfix = true := by
  rcases hm with rfl | rfl
  · exact h1
  · exact h2

theorem marker_count0 {p : List Char} (hm : isMarker p) {l : List Char}
    (h1 : countOcc (chars "BEGIN:VEVENT") l = 0)
    (h2 : countOcc (chars "END:VEVENT") l = 0) : countOcc p l = 0 := by
  rcases hm with rfl | rfl
  · exact h1
  · exact h2

/-- Strip a run of decimal digits: no marker occurrence starts at a digit. -/
theorem countOcc_digits_strip {p : List Char} (hm : isMarker p) (t : List Char)
    {b : List Char} (ht : ∀ c ∈ t, c.isDigit = true) :
    countOcc p (t ++ b) = countOcc p b := by
  apply countOcc_head_strip t (marker_ne_nil hm)
  intro x hx heq
  rcases marker_head hm x heq with rfl | rfl
  · exact absurd (ht _ hx) (by decide)
  · exact absurd (ht _ hx) (by decide)

/-- Strip a `formatDateTime` rendering: digits, `T` and `Z` start no marker. -/
theorem countOcc_dt_strip {p : List Char} (hm : isMarker p) (t : List Char)
    {b : List Char} (ht : ∀ c ∈ t, dtChar c) :
    countOcc p (t ++ b) = countOcc p b := by
  apply countOcc_head_strip t (marker_ne_nil hm)
  intro x hx heq
  have hcl := ht _ hx
  rcases marker_head hm x heq with rfl | rfl
  · rcases hcl with h | h | h
    · exact absurd h (by decide)
    · exact absurd h (by decide)
    · exact absurd h (by decide)
  · rcases hcl with h | h | h
    · exact absurd h (by decide)
    · exact absurd h (by decide)
    · exact absurd h (by decide)

/-- Strip a single character other than `B` and `E`. -/
theorem countOcc_char_strip {p : List Char} (hm : isMarker p) {x : Char}
    (hxB : x ≠ 'B') (hxE : x ≠ 'E') (l : List Char) :
    countOcc p (x :: l) = countOcc p l := by
  apply countOcc_cons_of_no_match
  cases hpre : p.isPrefixOf (x :: l) with
  | false => rfl
  | true =>
    exfalso
    rcases head_mem_of_isPrefixOf (marker_ne_nil hm) hpre with ⟨y, hy, hl⟩
    simp only [List.head?_cons, Option.some.injEq] at hl
    subst hl
    rcases marker_head hm x hy with rfl | rfl
    · exact hxB rfl
    · exact hxE rfl

theorem noVev_spec {f : List Char} (h : noVev f = true) :
    containsSub (chars "VEVENT") f = false := by
  simpa [noVev] using h

theorem noVev_take {t : List Char} (h : noVev t = true) (n : Nat) :
    noVev (t.take n) = true := by
  simp only [noVev, Bool.not_eq_true']
  cases hc : containsSub (chars "VEVENT") (t.take n) with
  | false => rfl
  | true => exact Bool.noConfusion ((noVev_spec h).symm.trans (containsSub_of_take hc))

/-- Strip a field known to avoid the `VEVENT` fragment, given that no
nonempty proper marker suffix starts the continuation. -/
theorem countOcc_vev_field_strip {p : List Char} (hm : isMarker p) (f : List Char)
    {c : List Char} (hcf : noVev f = true)
    (hc : ∀ k, 0 < k → k < p.length → (p.drop k).isPrefixOf c = false) :
    countOcc p (f ++ c) = countOcc p c := by
  rcases vev_suffix hm with ⟨off, hoff⟩
  exact countOcc_field_strip f hoff (by decide) (noVev_spec hcf) hc

/-- A field at the very end of a line contributes no marker occurrence. -/
theorem countOcc_vev_field_end {p : List Char} (hm : isMarker p) (f : List Char)
    (hcf : noVev f = true) : countOcc p f = 0 := by
  have h := countOcc_vev_field_strip hm f (c := []) hcf
    (fun k _ hk2 => not_isPrefixOf_nil_of_lt hk2)
  rw [List.append_nil] at h
  exact h.trans (countOcc_nil p)

theorem suffixKilled_spec_nil {p cfix : List Char} (h : suffixKilled p cfix = true) :
    ∀ k, 0 < k → k < p.length → (p.drop k).isPrefixOf cfix = false := by
  intro k h1 h2
  have hs := suffixKilled_spec h [] k h1 h2
  rwa [List.append_nil] at hs

theorem countOcc_dt_end {p : List Char} (hm : isMarker p) (t : List Char)
    (ht : ∀ c ∈ t, dtChar c) : countOcc p t = 0 := by
  have h := countOcc_dt_strip hm t (b := []) ht
  rw [List.append_nil] at h
  exact h.trans (countOcc_nil p)

theorem countOcc_digits_end {p : List Char} (hm : isMarker p) (t : List Char)
    (ht : ∀ c ∈ t, c.isDigit = true) : countOcc p t = 0 := by
  have h := countOcc_digits_strip hm t (b := []) ht
  rw [List.append_nil] at h
  exact h.trans (countOcc_nil p)

/-! ### The individual generated lines contain no marker occurrence -/

theorem countLine_prefix_dt {p : List Char} (hm : isMarker p) (a : List Char)
    (h1 : killsAll (chars "BEGIN:VEVENT") a = true)
    (h2 : killsAll (chars "END:VEVENT") a = true) (dt : EDateTime) (u : Bool) :
    countOcc p (a ++ formatDateTime dt u) = 0 := by
  rw [countOcc_fixed_strip a (marker_killsAll hm h1 h2)]
  exact countOcc_dt_end hm _ (fun c hc => formatDateTime_chars hc)

theorem countLine_prefix_digits {p : List Char} (hm : isMarker p) (a : List Char)
    (h1 : killsAll (chars "BEGIN:VEVENT") a = true)
    (h2 : killsAll (chars "END:VEVENT") a = true) (t : List Char)
    (ht : ∀ c ∈ t, c.isDigit = true) : countOcc p (a ++ t) = 0 := by
  rw [countOcc_fixed_strip a (marker_killsAll hm h1 h2)]
  exact countOcc_digits_end hm t ht

theorem countLine_prefix_field {p : List Char} (hm : isMarker p) (a : List Char)
    (h1 : killsAll (chars "BEGIN:VEVENT") a = true)
    (h2 : killsAll (chars "END:VEVENT") a = true) (f : List Char)
    (hf : noVev f = true) : countOcc p (a ++ f) = 0 := by
  rw [countOcc_fixed_strip a (marker_killsAll hm h1 h2)]
  exact countOcc_vev_field_end hm f hf

theorem countLine_calname {p : List Char} (hm : isMarker p) (h : List Char)
    (hh : noVev h = true) :
    countOcc p (chars "X-WR-CALNAME:" ++ (chars "YATWA Calendar" ++
      (' ' :: ('-' :: (' ' :: h.take 8))))) = 0 := by
  rw [countOcc_fixed_strip (chars "X-WR-CALNAME:") (marker_killsAll hm (by decide) (by decide))]
  rw [countOcc_fixed_strip (chars "YATWA Calendar") (marker_killsAll hm (by decide) (by decide))]
  rw [countOcc_char_strip hm (by decide) (by decide)]
  rw [countOcc_char_strip hm (by decide) (by decide)]
  rw [countOcc_char_strip hm (by decide) (by decide)]
  exact countOcc_vev_field_end hm _ (noVev_take hh 8)

theorem countLine_url_header {p : List Char} (hm : isMarker p) (h : List Char)
    (hh : noVev h = true) :
    countOcc p (chars "URL:" ++ (chars "http://localhost" ++ (chars "/api/ical/" ++ h))) = 0 := by
  rw [countOcc_fixed_strip (chars "URL:") (marker_killsAll hm (by decide) (by decide))]
  rw [countOcc_fixed_strip (chars "http://localhost") (marker_killsAll hm (by decide) (by decide))]
  rw [countOcc_fixed_strip (chars "/api/ical/") (marker_killsAll hm (by decide) (by decide))]
  exact countOcc_vev_field_end hm h hh

theorem countLine_uid {p : List Char} (hm : isMarker p) (id : Nat) (h : List Char)
    (hh : noVev h = true) :
    countOcc p (chars "UID:" ++ (natChars id ++ ('-' :: (h ++ chars "@yatwa.app")))) = 0 := by
  rw [countOcc_fixed_strip (chars "UID:") (marker_killsAll hm (by decide) (by decide))]
  rw [countOcc_digits_strip hm (natChars id) (fun c hc => natChars_isDigit hc)]
  rw [countOcc_char_strip hm (by decide) (by decide)]
  rw [countOcc_vev_field_strip hm h hh
    (suffixKilled_spec_nil (marker_suffixKilled hm (by decide) (by decide)))]
  exact marker_count0 hm (by decide) (by decide)

theorem countLine_url_event {p : List Char} (hm : isMarker p) (h : List Char)
    (hh : noVev h = true) :
    countOcc p (chars "URL:" ++ (chars "http://localhost" ++
      ('?' :: (chars "hash=" ++ h)))) = 0 := by
  rw [countOcc_fixed_strip (chars "URL:") (marker_killsAll hm (by decide) (by decide))]
  rw [countOcc_fixed_strip (chars "http://localhost") (marker_killsAll hm (by decide) (by decide))]
  rw [countOcc_char_strip hm (by decide) (by decide)]
  rw [countOcc_fixed_strip (chars "hash=") (marker_killsAll hm (by decide) (by decide))]
  exact countOcc_vev_field_end hm h hh

theorem countLine_categories {p : List Char} (hm : isMarker p) (icon : List Char) :
    countOcc p (chars "CATEGORIES:" ++ iconToCategory icon) = 0 := by
  have hc := iconToCategory_mem icon
  simp only [categorySet, List.mem_cons, List.not_mem_nil, or_false] at hc
  rcases hc with hc | hc | hc | hc | hc | hc <;> rw [hc] <;>
    exact marker_count0 hm (by decide) (by decide)

theorem sum_countOcc_timeLines {p : List Char} (hm : isMarker p) (d : EDate)
    (et : Option ETime) : ((timeLines d et).map (countOcc p)).sum = 0 := by
  cases et with
  | some t =>
    simp only [timeLines, List.map_cons, List.map_nil, List.sum_cons, List.sum_nil]
    rw [countLine_prefix_dt hm (chars "DTSTART;TZID=Europe/Berlin:") (by decide) (by decide),
      countLine_prefix_dt hm (chars "DTEND;TZID=Europe/Berlin:") (by decide) (by decide)]
    omega
  | none =>
    simp only [timeLines, List.map_cons, List.map_nil, List.sum_cons, List.sum_nil]
    rw [countLine_prefix_digits hm (chars "DTSTART;VALUE=DATE:") (by decide) (by decide) _
        (fun c hc => formatDate_isDigit hc),
      countLine_prefix_digits hm (chars "DTEND;VALUE=DATE:") (by decide) (by decide) _
        (fun c hc => formatDate_isDigit hc)]
    omega

theorem sum_countOcc_descLines {p : List Char} (hm : isMarker p) (desc : Option (List Char))
    (hd : (match desc with
           | some d => noVev (escapeText d)
           | none => true) = true) :
    ((descLines desc).map (countOcc p)).sum = 0 := by
  cases desc with
  | none => rfl
  | some d =>
    by_cases hnil : d = []
    · simp [descLines, hnil]
    · simp only [descLines, if_neg hnil, List.map_cons, List.map_nil, List.sum_cons,
        List.sum_nil]
      rw [countLine_prefix_field hm (chars "DESCRIPTION:") (by decide) (by decide) _ hd]
      omega

theorem sum_countOcc_generateEvent {p : List Char} (hm : isMarker p) (now : EDateTime)
    (e : Event) (h : List Char) (he : eventSafe e = true) (hh : noVev h = true) :
    ((generateEvent defaultConfig now e h).map (countOcc p)).sum = 1 := by
  rw [eventSafe, Bool.and_eq_true, Bool.and_eq_true] at he
  obtain ⟨het, hed, hei⟩ := he
  have hBE : countOcc p (chars "BEGIN:VEVENT") + countOcc p (chars "END:VEVENT") = 1 := by
    rcases hm with rfl | rfl <;> decide
  have hUID := countLine_uid hm e.id h hh
  have hDTSTAMP := countLine_prefix_dt hm (chars "DTSTAMP:") (by decide) (by decide) now true
  have hCREATED := countLine_prefix_dt hm (chars "CREATED:") (by decide) (by decide)
    e.created_at true
  have hMOD := countLine_prefix_dt hm (chars "LAST-MODIFIED:") (by decide) (by decide)
    e.updated_at true
  have hTL := sum_countOcc_timeLines hm e.event_date e.event_time
  have hSUM := countLine_prefix_field hm (chars "SUMMARY:") (by decide) (by decide) _ het
  have hDL := sum_countOcc_descLines hm e.description hed
  have hCAT := countLine_categories hm e.icon
  have hPRI := countLine_prefix_digits hm (chars "PRIORITY:") (by decide) (by decide)
    (natChars (iconToPriority e.icon)) (fun c hc => natChars_isDigit hc)
  have hS1 : countOcc p (chars "STATUS:CONFIRMED") = 0 :=
    marker_count0 hm (by decide) (by decide)
  have hS2 : countOcc p (chars "TRANSP:OPAQUE") = 0 :=
    marker_count0 hm (by decide) (by decide)
  have hS3 : countOcc p (chars "CLASS:PRIVATE") = 0 :=
    marker_count0 hm (by decide) (by decide)
  have hS4 : countOcc p (chars "SEQUENCE:0") = 0 :=
    marker_count0 hm (by decide) (by decide)
  have hURL := countLine_url_event hm h hh
  have hICON := countLine_prefix_field hm (chars "X-YATWA-ICON:") (by decide) (by decide)
    e.icon hei
  have hID := countLine_prefix_digits hm (chars "X-YATWA-ID:") (by decide) (by decide)
    (natChars e.id) (fun c hc => natChars_isDigit hc)
  rw [generateEvent, if_neg (iconToCategory_ne_nil e.icon)]
  simp only [List.map_append, List.sum_append, List.map_cons, List.map_nil, List.sum_cons,
    List.sum_nil, defaultConfig]
  rw [hUID, hDTSTAMP, hCREATED, hMOD, hTL, hSUM, hDL, hCAT, hPRI, hS1, hS2, hS3, hS4,
    hURL, hICON, hID]
  omega

theorem sum_countOcc_genEvents {p : List Char} (hm : isMarker p)
    (clock : Nat → EDateTime) (h : List Char) (hh : noVev h = true) :
    ∀ (events : List Event) (i : Nat), (∀ e ∈ events, eventSafe e = true) →
      ((genEvents defaultConfig clock h i events).map (countOcc p)).sum = events.length := by
  intro events
  induction events with
  | nil => intro i _; rfl
  | cons e rest ih =>
    intro i hev
    rw [genEvents, List.map_append, List.sum_append,
      sum_countOcc_generateEvent hm (clock i) e h (hev e (by simp)) hh,
      ih (i + 1) (fun e' he' => hev e' (by simp [he']))]
    simp [List.length_cons, Nat.add_comm]

/-- The marker occurrence count of a generated document equals the number
of events, for marker-fragment-free inputs. -/
theorem countOcc_generateCalendarClocked {p : List Char} (hm : isMarker p)
    (clock : Nat → EDateTime) (events : List Event) (h : List Char)
    (hh : noVev h = true) (hev : ∀ e ∈ events, eventSafe e = true) :
    countOcc p (generateCalendarClocked defaultConfig clock events h) = events.length := by
  rw [generateCalendarClocked,
    countOcc_docOf (marker_ne_nil hm) (marker_not_cr hm) (marker_not_lf hm)]
  rw [generateCalendarLines]
  have h1 : countOcc p (chars "BEGIN:VCALENDAR") = 0 := marker_count0 hm (by decide) (by decide)
  have h2 : countOcc p (chars "VERSION:2.0") = 0 := marker_count0 hm (by decide) (by decide)
  have h3 : countOcc p (chars "PRODID:" ++ defaultConfig.prodId) = 0 :=
    marker_count0 hm (by decide) (by decide)
  have h4 : countOcc p (chars "CALSCALE:GREGORIAN") = 0 := marker_count0 hm (by decide) (by decide)
  have h5 : countOcc p (chars "METHOD:PUBLISH") = 0 := marker_count0 hm (by decide) (by decide)
  have h6 : countOcc p (chars "X-WR-CALNAME:" ++ (defaultConfig.calName ++
      (' ' :: ('-' :: (' ' :: h.take 8))))) = 0 := countLine_calname hm h hh
  have h7 : countOcc p (chars "X-WR-CALDESC:" ++ defaultConfig.calDescription) = 0 :=
    marker_count0 hm (by decide) (by decide)
  have h8 : countOcc p (chars "X-WR-TIMEZONE:" ++ defaultConfig.timezone) = 0 :=
    marker_count0 hm (by decide) (by decide)
  have h9 : countOcc p (chars "X-PUBLISHED-TTL:PT1H") = 0 := marker_count0 hm (by decide) (by decide)
  have h10 : countOcc p (chars "URL:" ++ (defaultConfig.url ++ (chars "/api/ical/" ++ h))) = 0 :=
    countLine_url_header hm h hh
  have h11 : countOcc p (chars "REFRESH-INTERVAL;VALUE=DURATION:PT1H") = 0 :=
    marker_count0 hm (by decide) (by decide)
  have h12 : countOcc p (chars "X-WR-RELCALID:" ++ h) = 0 :=
    countLine_prefix_field hm (chars "X-WR-RELCALID:") (by decide) (by decide) h hh
  have htz : (generateTimezone.map (countOcc p)).sum = 0 := by
    rcases hm with rfl | rfl <;> decide
  have hfoot : countOcc p (chars "END:VCALENDAR") = 0 := marker_count0 hm (by decide) (by decide)
  have hgen := sum_countOcc_genEvents hm clock h hh events 1 hev
  simp only [List.map_append, List.sum_append, List.map_cons, List.map_nil, List.sum_cons,
    List.sum_nil]
  rw [h1, h2, h3, h4, h5, h6, h7, h8, h9, h10, h11, h12, htz, hfoot, hgen]
  omega

/-! ## Validity of generated documents -/

theorem containsSub_cons_of {q l : List Char} (c : Char) (h : containsSub q l = true) :
    containsSub q (c :: l) = true := by
  simp [containsSub, h]

theorem docOf_cons₂ (l l' : List Char) (ls : List (List Char)) :
    docOf (l :: l' :: ls) = l ++ ('\r' :: ('\n' :: docOf (l' :: ls))) := by
  simp [docOf, joinCRLF, List.append_assoc]

theorem containsSub_docOf_of_mem {q line : List Char} {lines : List (List Char)}
    (hmem : line ∈ lines) (hq : containsSub q line = true) :
    containsSub q (docOf lines) = true := by
  induction lines with
  | nil => simp at hmem
  | cons l ls ih =>
    rcases List.mem_cons.1 hmem with rfl | hmem
    · cases ls with
      | nil => exact containsSub_append_left hq
      | cons l' ls' => rw [docOf_cons₂]; exact containsSub_append_left hq
    · cases ls with
      | nil => simp at hmem
      | cons l' ls' =>
        rw [docOf_cons₂]
        exact containsSub_append_right (containsSub_cons_of _ (containsSub_cons_of _ (ih hmem)))

theorem containsSub_self (q : List Char) : containsSub q q = true :=
  containsSub_of_start (List.prefix_refl q)

/-- The generated document always passes every structural check of
`validateCalendar`, provided the raw inputs avoid the `VEVENT` fragment. -/
theorem validateCalendar_generated (clock : Nat → EDateTime) (events : List Event)
    (h : List Char) (hh : noVev h = true) (hev : ∀ e ∈ events, eventSafe e = true) :
    (validateCalendar (generateCalendarClocked defaultConfig clock events h)).errors = []
      ∧ (validateCalendar (generateCalendarClocked defaultConfig clock events h)).isValid
          = true := by
  have hm1 : chars "BEGIN:VCALENDAR" ∈ generateCalendarLines defaultConfig clock events h := by
    simp [generateCalendarLines]
  have hm2 : chars "VERSION:2.0" ∈ generateCalendarLines defaultConfig clock events h := by
    simp [generateCalendarLines]
  have hm3 : chars "PRODID:" ++ defaultConfig.prodId ∈
      generateCalendarLines defaultConfig clock events h := by
    simp [generateCalendarLines]
  have hm4 : chars "END:VCALENDAR" ∈ generateCalendarLines defaultConfig clock events h := by
    simp [generateCalendarLines]
  have hc1 : containsSub (chars "BEGIN:VCALENDAR")
      (generateCalendarClocked defaultConfig clock events h) = true :=
    containsSub_docOf_of_mem hm1 (containsSub_self _)
  have hc2 : containsSub (chars "VERSION:2.0")
      (generateCalendarClocked defaultConfig clock events h) = true :=
    containsSub_docOf_of_mem hm2 (containsSub_self _)
  have hc3 : containsSub (chars "PRODID:")
      (generateCalendarClocked defaultConfig clock events h) = true :=
    containsSub_docOf_of_mem hm3 (containsSub_of_start (List.prefix_append _ _))
  have hc4 : containsSub (chars "END:VCALENDAR")
      (generateCalendarClocked defaultConfig clock events h) = true :=
    containsSub_docOf_of_mem hm4 (containsSub_self _)
  have hcb := countOcc_generateCalendarClocked (Or.inl rfl) clock events h hh hev
  have hce := countOcc_generateCalendarClocked (Or.inr rfl) clock events h hh hev
  constructor
  · simp only [validateCalendar]
    rw [hc1, hc2, hc3, hc4, hcb, hce]
    simp
  · simp only [validateCalendar]
    rw [hc1, hc2, hc3, hc4, hcb, hce]
    simp

/-! ## Calendar-day numbering

Spec-side yardstick for the all-day end-date law: an absolute day count in
the proleptic Gregorian calendar. `nextDay` (the embedding of the source's
`setDate(getDate() + 1)` normalization) advances this count by exactly one
on every valid date, which is what "end date = start date + 1 calendar day"
means. -/

/-- Month length as a function of the leap flag alone. -/
def mLen (L : Bool) (m : Nat) : Nat :=
  if m = 2 then (if L then 29 else 28)
  else if m = 4 ∨ m = 6 ∨ m = 9 ∨ m = 11 then 30
  else 31

theorem daysInMonth_eq_mLen (y m : Nat) : daysInMonth y m = mLen (isLeap y) m := rfl

/-- Days in months `1..m` of a year with leap flag `L`. -/
def cumDays (L : Bool) : Nat → Nat
  | 0 => 0
  | m + 1 => cumDays L m + mLen L (m + 1)

/-- Number of leap years among `0, …, y-1`. -/
def leapsBefore (y : Nat) : Nat :=
  (y + 3) / 4 - (y + 99) / 100 + (y + 399) / 400

/-- Absolute (proleptic Gregorian) day number of a date. -/
def dayNumber (d : EDate) : Nat :=
  365 * d.year + leapsBefore d.year + cumDays (isLeap d.year) (d.month - 1) + d.day

theorem isLeap_iff (y : Nat) :
    isLeap y = true ↔ ((y % 4 = 0 ∧ ¬ y % 100 = 0) ∨ y % 400 = 0) := by
  simp [isLeap]

theorem leapsBefore_succ (y : Nat) :
    leapsBefore (y + 1) = leapsBefore y + (if isLeap y then 1 else 0) := by
  cases hL : isLeap y with
  | true =>
    have hy := (isLeap_iff y).1 hL
    rw [if_pos rfl]
    unfold leapsBefore
    omega
  | false =>
    have hy : ¬ ((y % 4 = 0 ∧ ¬ y % 100 = 0) ∨ y % 400 = 0) := by
      intro hcon
      rw [(isLeap_iff y).2 hcon] at hL
      exact Bool.noConfusion hL
    rw [if_neg (by simp)]
    push_neg at hy
    unfold leapsBefore
    omega

theorem cumDays_11 (L : Bool) : cumDays L 11 = 334 + (if L then 1 else 0) := by
  cases L <;> decide

theorem dayNumber_nextDay (d : EDate) (hv : validDate d) :
    dayNumber (nextDay d) = dayNumber d + 1 := by
  rcases d with ⟨y, m, day⟩
  obtain ⟨hm1, hm2, hd1, hd2⟩ := hv
  simp only at hm1 hm2 hd1 hd2
  unfold nextDay
  by_cases hcase1 : day + 1 ≤ daysInMonth y m
  · rw [if_pos hcase1]
    simp only [dayNumber]
    omega
  · rw [if_neg hcase1]
    have hday : day = daysInMonth y m := by
      simp only [daysInMonth] at hcase1 hd2 ⊢
      omega
    by_cases hcase2 : m + 1 ≤ 12
    · rw [if_pos hcase2]
      obtain ⟨m', rfl⟩ : ∃ m', m = m' + 1 := ⟨m - 1, by omega⟩
      simp only [dayNumber, Nat.add_sub_cancel]
      have hrec : cumDays (isLeap y) (m' + 1) = cumDays (isLeap y) m' + mLen (isLeap y) (m' + 1) := rfl
      rw [daysInMonth_eq_mLen] at hday
      omega
    · rw [if_neg hcase2]
      have hm12 : m = 12 := by omega
      subst hm12
      have hday31 : day = 31 := by rw [hday]; rfl
      subst hday31
      simp only [dayNumber, Nat.add_sub_cancel]
      rw [leapsBefore_succ]
      have h11 := cumDays_11 (isLeap y)
      show 365 * (y + 1) + (leapsBefore y + if isLeap y then 1 else 0) + cumDays (isLeap (y + 1)) 0 + 1 =
        365 * y + leapsBefore y + cumDays (isLeap y) 11 + 31 + 1
      have h0 : cumDays (isLeap (y + 1)) 0 = 0 := rfl
      cases hL : isLeap y <;> rw [hL] at h11 <;> simp at h11 ⊢ <;> omega

/-! ## Escaping: single-pass characterization and absence of raw specials -/

/-- Modelled from the spec's description of the escaping steps: the intended
per-character encoding (backslash doubled, separators backslash-escaped,
newline as the two-character `\n`, carriage return dropped).  Escaping the
backslash first makes the sequential replaces of the source equal to one
pass of this map (`escapeFull_eq_join`); any other order would double-escape. -/
def encodeChar (x : Char) : List Char :=
  if x = '\\' then ['\\', '\\']
  else if x = ';' then ['\\', ';']
  else if x = ',' then ['\\', ',']
  else if x = '\n' then ['\\', 'n']
  else if x = '\r' then []
  else [x]

/-- The escaping chain of `escapeText` before the `substring(0, 1000)`. -/
def escapeFull (t : List Char) : List Char :=
  replaceChar '\r' []
    (replaceChar '\n' ['\\', 'n']
      (replaceChar ',' ['\\', ',']
        (replaceChar ';' ['\\', ';']
          (replaceChar '\\' ['\\', '\\'] t))))

theorem escapeText_eq_take (t : List Char) : escapeText t = (escapeFull t).take 1000 := rfl

theorem replaceChar_append (c : Char) (r : List Char) :
    ∀ a b : List Char, replaceChar c r (a ++ b) = replaceChar c r a ++ replaceChar c r b := by
  intro a b
  induction a with
  | nil => rfl
  | cons x a' ih =>
    show replaceChar c r (x :: (a' ++ b)) = _
    by_cases hx : x = c
    · simp [replaceChar, hx, ih, List.append_assoc]
    · simp [replaceChar, hx, ih]

theorem escapeFull_append (a b : List Char) :
    escapeFull (a ++ b) = escapeFull a ++ escapeFull b := by
  simp [escapeFull, replaceChar_append]

theorem escapeFull_single (x : Char) : escapeFull [x] = encodeChar x := by
  by_cases h1 : x = '\\'
  · subst h1; decide
  · by_cases h2 : x = ';'
    · subst h2; decide
    · by_cases h3 : x = ','
      · subst h3; decide
      · by_cases h4 : x = '\n'
        · subst h4; decide
        · by_cases h5 : x = '\r'
          · subst h5; decide
          · simp [escapeFull, replaceChar, encodeChar, h1, h2, h3, h4, h5]

theorem escapeFull_eq_join : ∀ t : List Char, escapeFull t = (t.map encodeChar).flatten := by
  intro t
  induction t with
  | nil => rfl
  | cons x t' ih =>
    have hsplit : escapeFull (x :: t') = escapeFull [x] ++ escapeFull t' := by
      have h := escapeFull_append [x] t'
      simpa using h
    rw [hsplit, escapeFull_single, ih]
    simp

/-- Scanner for escaped text: a character following a backslash is taken as
escaped; a bare separator, newline or carriage return is rejected.  `esc`
records whether the previous character was an unconsumed backslash. -/
def noRawScan (esc : Bool) : List Char → Bool
  | [] => true
  | x :: rest =>
    if esc then noRawScan false rest
    else if x = '\\' then noRawScan true rest
    else !(x == ';' || x == ',' || x == '\n' || x == '\r') && noRawScan false rest

/-- The output contains no unescaped separator, newline or carriage
return: every such character is immediately preceded by an (odd-position)
backslash. -/
def noRawSpecials (l : List Char) : Bool := noRawScan false l

theorem noRawScan_esc (x : Char) (rest : List Char) :
    noRawScan true (x :: rest) = noRawScan false rest := by
  simp only [noRawScan, if_pos]

theorem noRawScan_backslash (rest : List Char) :
    noRawScan false ('\\' :: rest) = noRawScan true rest := by
  simp [noRawScan]

theorem noRawScan_cons {x : Char} (hx : x ≠ '\\') (rest : List Char) :
    noRawScan false (x :: rest) =
      (!(x == ';' || x == ',' || x == '\n' || x == '\r') && noRawScan false rest) := by
  simp only [noRawScan]
  rw [if_neg (by simp), if_neg hx]

theorem noRaw_join_encode : ∀ (t b : List Char), noRawScan false b = true →
    noRawScan false ((t.map encodeChar).flatten ++ b) = true := by
  intro t
  induction t with
  | nil => intro b hb; simpa using hb
  | cons x t' ih =>
    intro b hb
    have hjoin : ((x :: t').map encodeChar).flatten ++ b =
        encodeChar x ++ ((t'.map encodeChar).flatten ++ b) := by
      simp [List.append_assoc]
    rw [hjoin]
    by_cases h1 : x = '\\'
    · subst h1; rw [show encodeChar '\\' = ['\\', '\\'] from rfl]
      rw [List.cons_append, List.cons_append, noRawScan_backslash, noRawScan_esc]
      exact ih b hb
    · by_cases h2 : x = ';'
      · subst h2; rw [show encodeChar ';' = ['\\', ';'] from rfl]
        rw [List.cons_append, List.cons_append, noRawScan_backslash, noRawScan_esc]
        exact ih b hb
      · by_cases h3 : x = ','
        · subst h3; rw [show encodeChar ',' = ['\\', ','] from rfl]
          rw [List.cons_append, List.cons_append, noRawScan_backslash, noRawScan_esc]
          exact ih b hb
        · by_cases h4 : x = '\n'
          · subst h4; rw [show encodeChar '\n' = ['\\', 'n'] from rfl]
            rw [List.cons_append, List.cons_append, noRawScan_backslash, noRawScan_esc]
            exact ih b hb
          · by_cases h5 : x = '\r'
            · subst h5; rw [show encodeChar '\r' = ([] : List Char) from rfl]
              rw [List.nil_append]
              exact ih b hb
            · rw [show encodeChar x = [x] from by
                simp [encodeChar, h1, h2, h3, h4, h5]]
              rw [List.cons_append, List.nil_append, noRawScan_cons h1]
              rw [ih b hb]
              simp [h2, h3, h4, h5]

theorem noRawScan_take : ∀ (l : List Char) (esc : Bool) (n : Nat),
    noRawScan esc l = true → noRawScan esc (l.take n) = true := by
  intro l
  induction l with
  | nil => intro esc n h; simpa using h
  | cons x rest ih =>
    intro esc n h
    cases n with
    | zero => rfl
    | succ n' =>
      rw [List.take_succ_cons]
      cases esc with
      | true =>
        rw [noRawScan_esc] at h
        rw [noRawScan_esc]
        exact ih false n' h
      | false =>
        by_cases hx : x = '\\'
        · subst hx
          rw [noRawScan_backslash] at h
          rw [noRawScan_backslash]
          exact ih true n' h
        · rw [noRawScan_cons hx] at h
          rw [Bool.and_eq_true] at h
          obtain ⟨hx2, hrest⟩ := h
          rw [noRawScan_cons hx, hx2, ih false n' hrest]
          rfl

theorem noRawSpecials_escapeText (t : List Char) :
    noRawSpecials (escapeText t) = true := by
  rw [noRawSpecials, escapeText_eq_take, escapeFull_eq_join]
  have hfull : noRawScan false ((t.map encodeChar).flatten) = true := by
    have h := noRaw_join_encode t [] rfl
    simpa using h
  exact noRawScan_take _ false 1000 hfull

theorem mem_encodeChar_ne {c x : Char} (h : c ∈ encodeChar x) : c ≠ '\n' ∧ c ≠ '\r' := by
  unfold encodeChar at h
  by_cases h1 : x = '\\'
  · rw [if_pos h1] at h; simp at h; subst h; exact ⟨by decide, by decide⟩
  · rw [if_neg h1] at h
    by_cases h2 : x = ';'
    · rw [if_pos h2] at h; simp at h
      rcases h with rfl | rfl <;> exact ⟨by decide, by decide⟩
    · rw [if_neg h2] at h
      by_cases h3 : x = ','
      · rw [if_pos h3] at h; simp at h
        rcases h with rfl | rfl <;> exact ⟨by decide, by decide⟩
      · rw [if_neg h3] at h
        by_cases h4 : x = '\n'
        · rw [if_pos h4] at h; simp at h
          rcases h with rfl | rfl <;> exact ⟨by decide, by decide⟩
        · rw [if_neg h4] at h
          by_cases h5 : x = '\r'
          · rw [if_pos h5] at h; simp at h
          · rw [if_neg h5] at h; simp at h; subst h
            exact ⟨h4, h5⟩

theorem escapeText_no_crlf (t : List Char) :
    '\n' ∉ escapeText t ∧ '\r' ∉ escapeText t := by
  rw [escapeText_eq_take, escapeFull_eq_join]
  constructor
  · intro hmem
    have hj := List.mem_of_mem_take hmem
    rcases List.mem_flatten.1 hj with ⟨blk, hblk, hc⟩
    rcases List.mem_map.1 hblk with ⟨x, _, rfl⟩
    exact (mem_encodeChar_ne hc).1 rfl
  · intro hmem
    have hj := List.mem_of_mem_take hmem
    rcases List.mem_flatten.1 hj with ⟨blk, hblk, hc⟩
    rcases List.mem_map.1 hblk with ⟨x, _, rfl⟩
    exact (mem_encodeChar_ne hc).2 rfl

theorem noRaw_summary_line (t : List Char) :
    noRawSpecials (chars "SUMMARY:" ++ escapeText t) = true := by
  show noRawScan false ('S' :: 'U' :: 'M' :: 'M' :: 'A' :: 'R' :: 'Y' :: ':' :: escapeText t) = true
  rw [noRawScan_cons (by decide), noRawScan_cons (by decide), noRawScan_cons (by decide),
    noRawScan_cons (by decide), noRawScan_cons (by decide), noRawScan_cons (by decide),
    noRawScan_cons (by decide), noRawScan_cons (by decide)]
  have h := noRawSpecials_escapeText t
  rw [noRawSpecials] at h
  rw [h]
  decide

/-! ## The statistics comparator is a total preorder and sorting finds its
minimum -/

theorem char_toNat_inj {a b : Char} (h : a.toNat = b.toNat) : a = b := by
  rcases a with ⟨⟨av, hav⟩, ha⟩
  rcases b with ⟨⟨bv, hbv⟩, hb⟩
  simp [Char.toNat, UInt32.toNat] at h
  subst h
  rfl

theorem strCmp_eq_iff : ∀ a b : List Char, strCmp a b = .eq ↔ a = b := by
  intro a
  induction a with
  | nil => intro b; cases b <;> simp [strCmp]
  | cons x as ih =>
    intro b
    cases b with
    | nil => simp [strCmp]
    | cons y bs =>
      simp only [strCmp]
      by_cases h1 : x.toNat < y.toNat
      · rw [if_pos h1]
        constructor
        · intro h; exact absurd h (by simp)
        · rintro ⟨rfl, rfl⟩; omega
      · rw [if_neg h1]
        by_cases h2 : y.toNat < x.toNat
        · rw [if_pos h2]
          constructor
          · intro h; exact absurd h (by simp)
          · rintro ⟨rfl, rfl⟩; omega
        · rw [if_neg h2]
          have hxy : x = y := char_toNat_inj (by omega)
          subst hxy
          rw [ih bs]
          simp

theorem strCmp_swap : ∀ a b : List Char, strCmp b a = (strCmp a b).swap := by
  intro a
  induction a with
  | nil => intro b; cases b <;> simp [strCmp, Ordering.swap]
  | cons x as ih =>
    intro b
    cases b with
    | nil => simp [strCmp, Ordering.swap]
    | cons y bs =>
      simp only [strCmp]
      by_cases h1 : x.toNat < y.toNat
      · rw [if_neg (by omega : ¬ y.toNat < x.toNat), if_pos h1, if_pos h1]
        rfl
      · by_cases h2 : y.toNat < x.toNat
        · rw [if_pos h2, if_neg h1, if_pos h2]
          rfl
        · rw [if_neg h2, if_neg h1, if_neg h1, if_neg h2]
          exact ih bs

theorem strCmp_lt_trans : ∀ a b c : List Char,
    strCmp a b = .lt → strCmp b c = .lt → strCmp a c = .lt := by
  intro a
  induction a with
  | nil =>
    intro b c hab hbc
    cases b with
    | nil => exact hbc
    | cons y bs =>
      cases c with
      | nil => simp [strCmp] at hbc
      | cons z cs => simp [strCmp]
  | cons x as ih =>
    intro b c hab hbc
    cases b with
    | nil => simp [strCmp] at hab
    | cons y bs =>
      cases c with
      | nil => simp [strCmp] at hbc
      | cons z cs =>
        simp only [strCmp] at hab hbc ⊢
        by_cases h1 : x.toNat < y.toNat
        · by_cases h2 : y.toNat < z.toNat
          · rw [if_pos (by omega : x.toNat < z.toNat)]
          · rw [if_neg h2] at hbc
            by_cases h3 : z.toNat < y.toNat
            · rw [if_pos h3] at hbc; exact absurd hbc (by simp)
            · have hyz : y = z := char_toNat_inj (by omega)
              subst hyz
              rw [if_pos h1]
        · rw [if_neg h1] at hab
          by_cases h2 : y.toNat < x.toNat
          · rw [if_pos h2] at hab; exact absurd hab (by simp)
          · have hxy : x = y := char_toNat_inj (by omega)
            subst hxy
            simp only [if_neg h1, if_neg h2] at hab
            by_cases h3 : x.toNat < z.toNat
            · rw [if_pos h3]
            · rw [if_neg h3] at hbc ⊢
              by_cases h4 : z.toNat < x.toNat
              · rw [if_pos h4] at hbc; exact absurd hbc (by simp)
              · rw [if_neg h4] at hbc ⊢
                exact ih bs cs hab hbc

theorem eventLe_iff (a b : Event) : eventLe a b = true ↔ eventCmp a b ≠ .gt := by
  unfold eventLe
  rcases eventCmp a b <;> simp

theorem eventCmp_date_lt {a b : Event} (h : strCmp (dateStr a) (dateStr b) = .lt) :
    eventCmp a b = .lt := by
  unfold eventCmp; rw [h]

theorem eventCmp_date_gt {a b : Event} (h : strCmp (dateStr a) (dateStr b) = .gt) :
    eventCmp a b = .gt := by
  unfold eventCmp; rw [h]

theorem eventCmp_date_eq {a b : Event} (h : strCmp (dateStr a) (dateStr b) = .eq) :
    eventCmp a b = strCmp (timeOrMidnight a) (timeOrMidnight b) := by
  unfold eventCmp; rw [h]

theorem strCmp_not_gt_trans {a b c : List Char}
    (hab : strCmp a b ≠ .gt) (hbc : strCmp b c ≠ .gt) : strCmp a c ≠ .gt := by
  rcases h1 : strCmp a b with _ | _ | _
  · rcases h2 : strCmp b c with _ | _ | _
    · rw [strCmp_lt_trans a b c h1 h2]; simp
    · rw [← (strCmp_eq_iff b c).1 h2, h1]; simp
    · exact absurd h2 hbc
  · rw [(strCmp_eq_iff a b).1 h1]
    exact hbc
  · exact absurd h1 hab

theorem eventLe_trans (a b c : Event) (hab : eventLe a b = true) (hbc : eventLe b c = true) :
    eventLe a c = true := by
  rw [eventLe_iff] at hab hbc ⊢
  rcases h1 : strCmp (dateStr a) (dateStr b) with _ | _ | _
  · rcases h2 : strCmp (dateStr b) (dateStr c) with _ | _ | _
    · rw [eventCmp_date_lt (strCmp_lt_trans _ _ _ h1 h2)]; simp
    · rw [eventCmp_date_lt (by rw [← (strCmp_eq_iff _ _).1 h2]; exact h1)]; simp
    · exact absurd (eventCmp_date_gt h2) hbc
  · have hab' : strCmp (timeOrMidnight a) (timeOrMidnight b) ≠ .gt := by
      rw [eventCmp_date_eq h1] at hab; exact hab
    have hd1 := (strCmp_eq_iff _ _).1 h1
    rcases h2 : strCmp (dateStr b) (dateStr c) with _ | _ | _
    · rw [eventCmp_date_lt (by rw [hd1]; exact h2)]; simp
    · have hbc' : strCmp (timeOrMidnight b) (timeOrMidnight c) ≠ .gt := by
        rw [eventCmp_date_eq h2] at hbc; exact hbc
      have hd2 := (strCmp_eq_iff _ _).1 h2
      rw [eventCmp_date_eq (by rw [hd1, hd2]; exact (strCmp_eq_iff _ _).2 rfl)]
      exact strCmp_not_gt_trans hab' hbc'
    · exact absurd (eventCmp_date_gt h2) hbc
  · exact absurd (eventCmp_date_gt h1) hab

theorem eventLe_total (a b : Event) : (eventLe a b || eventLe b a) = true := by
  rw [Bool.or_eq_true, eventLe_iff, eventLe_iff]
  rcases h1 : strCmp (dateStr a) (dateStr b) with _ | _ | _
  · left; rw [eventCmp_date_lt h1]; simp
  · have h1' : strCmp (dateStr b) (dateStr a) = .eq := by
      rw [strCmp_swap, h1]; rfl
    rcases h2 : strCmp (timeOrMidnight a) (timeOrMidnight b) with _ | _ | _
    · left; rw [eventCmp_date_eq h1, h2]; simp
    · left; rw [eventCmp_date_eq h1, h2]; simp
    · right
      rw [eventCmp_date_eq h1', strCmp_swap, h2]
      simp [Ordering.swap]
  · right
    have h1' : strCmp (dateStr b) (dateStr a) = .lt := by
      rw [strCmp_swap, h1]; rfl
    rw [eventCmp_date_lt h1']; simp

theorem eventLe_refl (a : Event) : eventLe a a = true := by
  rw [eventLe_iff, eventCmp_date_eq ((strCmp_eq_iff _ _).2 rfl),
    (strCmp_eq_iff _ _).2 rfl]
  simp

/-- The `nextEvent` field is a minimum of the upcoming events under the source's
comparator. -/
theorem nextEvent_eq_min (today : List Char) (events : List Event)
    (hne : events.filter (isUpcoming today) ≠ []) :
    ∃ e, (generateStats today events).nextEvent = some e ∧
      e ∈ events.filter (isUpcoming today) ∧
      ∀ x ∈ events.filter (isUpcoming today), eventLe e x = true := by
  have hperm := List.mergeSort_perm (events.filter (isUpcoming today)) eventLe
  have hsorted := @List.sorted_mergeSort Event eventLe
    (fun a b c => eventLe_trans a b c) (fun a b => eventLe_total a b)
    (events.filter (isUpcoming today))
  have hlen := hperm.length_eq
  have hne2 : (events.filter (isUpcoming today)).mergeSort eventLe ≠ [] := by
    intro h0
    rw [h0] at hlen
    exact hne (List.length_eq_zero.1 hlen.symm)
  obtain ⟨e, rest, heq⟩ := List.exists_cons_of_ne_nil hne2
  refine ⟨e, ?_, ?_, ?_⟩
  · show ((events.filter (isUpcoming today)).mergeSort eventLe).head? = some e
    rw [heq]
    rfl
  · exact hperm.mem_iff.1 (heq ▸ List.mem_cons_self e rest)
  · intro x hx
    have hx2 : x ∈ e :: rest := heq ▸ hperm.mem_iff.2 hx
    rcases List.mem_cons.1 hx2 with rfl | hx3
    · exact eventLe_refl x
    · rw [heq] at hsorted
      exact (List.pairwise_cons.1 hsorted).1 x hx3

theorem nextEvent_of_no_upcoming (today : List Char) (events : List Event)
    (hnil : events.filter (isUpcoming today) = []) :
    (generateStats today events).nextEvent = none := by
  show ((events.filter (isUpcoming today)).mergeSort eventLe).head? = none
  rw [hnil, List.mergeSort_nil]
  rfl

/-! ## Clock-threading, validation projections, statistics keys -/

theorem genEvents_congr (cfg : ICalConfig) (h : List Char) (c₁ c₂ : Nat → EDateTime)
    (hc : ∀ n, c₁ n = c₂ n) :
    ∀ (events : List Event) (i : Nat),
      genEvents cfg c₁ h i events = genEvents cfg c₂ h i events := by
  intro events
  induction events with
  | nil => intro i; rfl
  | cons e rest ih =>
    intro i
    rw [genEvents, genEvents, hc i, ih (i + 1)]

/-- Under a frozen clock every `new Date()` reading is the same instant and
the clocked generator coincides with the fixed-instant one. -/
theorem generateCalendarClocked_frozen (cfg : ICalConfig) (c : Nat → EDateTime)
    (t : EDateTime) (events : List Event) (h : List Char) (hc : ∀ n, c n = t) :
    generateCalendarClocked cfg c events h = generateCalendar cfg t events h := by
  unfold generateCalendar generateCalendarClocked generateCalendarLines
  rw [genEvents_congr cfg h c (fun _ => t) (fun n => hc n) events 1]

theorem validate_isValid_eq (s : List Char) :
    (validateCalendar s).isValid = ((validateCalendar s).errors.length == 0) := rfl

theorem categories_line_mem (cfg : ICalConfig) (now : EDateTime) (e : Event)
    (h : List Char) :
    chars "CATEGORIES:" ++ iconToCategory e.icon ∈ generateEvent cfg now e h := by
  unfold generateEvent
  rw [if_neg (iconToCategory_ne_nil e.icon)]
  simp

theorem priority_line_mem (cfg : ICalConfig) (now : EDateTime) (e : Event)
    (h : List Char) :
    chars "PRIORITY:" ++ natChars (iconToPriority e.icon) ∈ generateEvent cfg now e h := by
  unfold generateEvent
  simp

theorem bumpCategory_keys (k : List Char) :
    ∀ (acc : List (List Char × Nat)) (kv : List Char × Nat),
      kv ∈ bumpCategory k acc → kv.1 = k ∨ kv ∈ acc := by
  intro acc
  induction acc with
  | nil =>
    intro kv h
    simp only [bumpCategory, List.mem_singleton] at h
    subst h
    exact Or.inl rfl
  | cons kv' rest ih =>
    intro kv h
    rcases kv' with ⟨k', n⟩
    by_cases he : k' = k
    · rw [bumpCategory, if_pos he] at h
      rcases List.mem_cons.1 h with rfl | h2
      · exact Or.inl he
      · exact Or.inr (List.mem_cons.2 (Or.inr h2))
    · rw [bumpCategory, if_neg he] at h
      rcases List.mem_cons.1 h with rfl | h2
      · exact Or.inr (List.mem_cons.2 (Or.inl rfl))
      · rcases ih kv h2 with h3 | h3
        · exact Or.inl h3
        · exact Or.inr (List.mem_cons.2 (Or.inr h3))

theorem statsFold_keys :
    ∀ (events : List Event) (acc : List (List Char × Nat)),
      (∀ kv ∈ acc, kv.1 ∈ categorySet) →
      ∀ kv ∈ events.foldl (fun acc e => bumpCategory (iconToCategory e.icon) acc) acc,
        kv.1 ∈ categorySet := by
  intro events
  induction events with
  | nil => intro acc hacc kv h; exact hacc kv h
  | cons e rest ih =>
    intro acc hacc kv h
    rw [List.foldl_cons] at h
    refine ih _ ?_ kv h
    intro kv2 h2
    rcases bumpCategory_keys _ _ _ h2 with h3 | h3
    · rw [h3]; exact iconToCategory_mem e.icon
    · exact hacc _ h3

/-! ## Concrete sample data for witnesses and counterexamples -/

/-- A fixed clock instant used by concrete instances. -/
def sampleNow : EDateTime := ⟨⟨2025, 1, 1⟩, ⟨12, 0, 0⟩⟩

/-- A harmless everyday event. -/
def sampleEvent : Event :=
  { id := 7, title := chars "Team Meeting", event_date := ⟨2025, 6, 15⟩
  , event_time := none, icon := chars "work"
  , description := some (chars "Quarterly planning")
  , created_at := sampleNow, updated_at := sampleNow }

/-- An event whose title spoofs the begin marker. -/
def spoofBeginEvent : Event :=
  { id := 1, title := chars "BEGIN:VEVENT", event_date := ⟨2025, 3, 1⟩
  , event_time := none, icon := chars "calendar", description := none
  , created_at := sampleNow, updated_at := sampleNow }

/-- An event whose title spoofs the end marker. -/
def spoofEndEvent : Event :=
  { id := 2, title := chars "END:VEVENT", event_date := ⟨2025, 3, 1⟩
  , event_time := none, icon := chars "calendar", description := none
  , created_at := sampleNow, updated_at := sampleNow }

/-- A leap-day all-day event. -/
def leapEvent : Event :=
  { id := 3, title := chars "Leap day", event_date := ⟨2024, 2, 29⟩
  , event_time := none, icon := chars "event", description := none
  , created_at := sampleNow, updated_at := sampleNow }

/-- Three events on the same date: all-day, 09:00 and 17:00. -/
def allDayEvent : Event :=
  { id := 10, title := chars "All day", event_date := ⟨2025, 6, 15⟩
  , event_time := none, icon := chars "event", description := none
  , created_at := sampleNow, updated_at := sampleNow }

def nineAmEvent : Event :=
  { id := 11, title := chars "Morning", event_date := ⟨2025, 6, 15⟩
  , event_time := some ⟨9, 0, 0⟩, icon := chars "event", description := none
  , created_at := sampleNow, updated_at := sampleNow }

def fivePmEvent : Event :=
  { id := 12, title := chars "Evening", event_date := ⟨2025, 6, 15⟩
  , event_time := some ⟨17, 0, 0⟩, icon := chars "event", description := none
  , created_at := sampleNow, updated_at := sampleNow }

/-- A marker-free user identifier. -/
def sampleHash : List Char := chars "abc123def456"

/-! ## Claim theorems -/

/-- C1: for every all-day event record (no `event_time`) with a valid
calendar date, the emitted `VEVENT` block carries
`DTSTART;VALUE=DATE:` on the event date and `DTEND;VALUE=DATE:` on
`nextDay` of it, and `nextDay` advances the absolute day number by exactly
one — the exclusive end is start + 1 calendar day — including at month and
year boundaries: 2024-02-29 → 2024-03-01 and 2024-12-31 → 2025-01-01. -/
theorem allday_dtend_one_day_after_dtstart (now : EDateTime) (e : Event)
    (userHash : List Char) (ht : e.event_time = none) (hv : validDate e.event_date) :
    (∃ rest, generateEvent defaultConfig now e userHash =
      [ chars "BEGIN:VEVENT"
      , chars "UID:" ++ (natChars e.id ++ ('-' :: (userHash ++ chars "@yatwa.app")))
      , chars "DTSTAMP:" ++ formatDateTime now true
      , chars "CREATED:" ++ formatDateTime e.created_at true
      , chars "LAST-MODIFIED:" ++ formatDateTime e.updated_at true
      , chars "DTSTART;VALUE=DATE:" ++ formatDate e.event_date
      , chars "DTEND;VALUE=DATE:" ++ formatDate (nextDay e.event_date)
      , chars "SUMMARY:" ++ escapeText e.title ] ++ rest)
    ∧ dayNumber (nextDay e.event_date) = dayNumber e.event_date + 1
    ∧ nextDay ⟨2024, 2, 29⟩ = ⟨2024, 3, 1⟩
    ∧ nextDay ⟨2024, 12, 31⟩ = ⟨2025, 1, 1⟩ := by
  refine ⟨?_, dayNumber_nextDay _ hv, by decide, by decide⟩
  rw [generateEvent, ht]
  simp only [timeLines]
  refine ⟨descLines e.description ++
    ((if iconToCategory e.icon = [] then []
      else [chars "CATEGORIES:" ++ iconToCategory e.icon]) ++
      [ chars "PRIORITY:" ++ natChars (iconToPriority e.icon), chars "STATUS:CONFIRMED",
        chars "TRANSP:OPAQUE", chars "CLASS:PRIVATE", chars "SEQUENCE:0",
        chars "URL:" ++ (defaultConfig.url ++ ('?' :: (chars "hash=" ++ userHash))),
        chars "X-YATWA-ICON:" ++ e.icon, chars "X-YATWA-ID:" ++ natChars e.id,
        chars "END:VEVENT" ]), ?_⟩
  simp [List.append_assoc]

/-- Witness for C1 at the leap-day boundary event. -/
theorem allday_dtend_one_day_after_dtstart_witness :
    dayNumber (nextDay ⟨2024, 2, 29⟩) = dayNumber ⟨2024, 2, 29⟩ + 1
    ∧ nextDay ⟨2024, 2, 29⟩ = ⟨2024, 3, 1⟩ := by
  have h := allday_dtend_one_day_after_dtstart sampleNow leapEvent sampleHash rfl (by decide)
  exact ⟨h.2.1, h.2.2.1⟩

/-- C2: `escapeText` equals one left-to-right pass of the per-character
encoding (backslash escaped first, so later escapes are not double-escaped)
followed by the 1000-character truncation; every `SUMMARY` line built from
it contains no unescaped semicolon, comma, newline or carriage return, and
no newline or carriage-return character at all; on a title containing a
comma, semicolon, backslash and embedded newline it produces exactly the
escaped form. -/
theorem escapeText_single_pass_no_raw_specials :
    (∀ t : List Char,
      escapeText t = ((t.map encodeChar).flatten).take 1000
      ∧ noRawSpecials (chars "SUMMARY:" ++ escapeText t) = true
      ∧ '\n' ∉ escapeText t ∧ '\r' ∉ escapeText t)
    ∧ escapeText (chars "a,b;c\\d\ne") = chars "a\\,b\\;c\\\\d\\ne" := by
  refine ⟨fun t => ⟨?_, noRaw_summary_line t, escapeText_no_crlf t⟩, by decide⟩
  rw [escapeText_eq_take, escapeFull_eq_join]

/-- C3 counterexample: an event whose title contains an `END:VEVENT`
marker string makes the document's marker counts unbalanced and unequal to
the list length. -/
theorem marker_counts_spoofed_by_title :
    ¬ (countOcc (chars "BEGIN:VEVENT")
          (generateCalendar defaultConfig sampleNow [spoofEndEvent] sampleHash)
        = countOcc (chars "END:VEVENT")
          (generateCalendar defaultConfig sampleNow [spoofEndEvent] sampleHash)
      ∧ countOcc (chars "BEGIN:VEVENT")
          (generateCalendar defaultConfig sampleNow [spoofEndEvent] sampleHash)
        = [spoofEndEvent].length) := by
  decide

/-- C3 (amended): for every non-empty event list whose escaped titles and
descriptions, icons and user identifier avoid the marker fragment
`VEVENT`, the document's `BEGIN:VEVENT` and `END:VEVENT` counts (both as
occurrence-position counts and as the non-overlapping global-regex counts
of the validator) are equal and equal the input list length. -/
theorem marker_counts_match_event_count (now : EDateTime) (events : List Event)
    (h : List Char) (_hne : events ≠ []) (hh : noVev h = true)
    (hev : ∀ e ∈ events, eventSafe e = true) :
    countOcc (chars "BEGIN:VEVENT") (generateCalendar defaultConfig now events h)
      = countOcc (chars "END:VEVENT") (generateCalendar defaultConfig now events h)
    ∧ countOcc (chars "BEGIN:VEVENT") (generateCalendar defaultConfig now events h)
      = events.length
    ∧ countRe (chars "BEGIN:VEVENT") (generateCalendar defaultConfig now events h)
      = events.length
    ∧ countRe (chars "END:VEVENT") (generateCalendar defaultConfig now events h)
      = events.length := by
  have hb := countOcc_generateCalendarClocked (Or.inl rfl) (fun _ => now) events h hh hev
  have he := countOcc_generateCalendarClocked (Or.inr rfl) (fun _ => now) events h hh hev
  rw [generateCalendar]
  refine ⟨hb.trans he.symm, hb, ?_, ?_⟩
  · rw [countRe_eq_countOcc (by decide) (by decide)]
    exact hb
  · rw [countRe_eq_countOcc (by decide) (by decide)]
    exact he

/-- Witness for C3 (amended) on a one-event list. -/
theorem marker_counts_match_event_count_witness :
    countOcc (chars "BEGIN:VEVENT")
        (generateCalendar defaultConfig sampleNow [sampleEvent] sampleHash)
      = countOcc (chars "END:VEVENT")
        (generateCalendar defaultConfig sampleNow [sampleEvent] sampleHash)
    ∧ countOcc (chars "BEGIN:VEVENT")
        (generateCalendar defaultConfig sampleNow [sampleEvent] sampleHash)
      = [sampleEvent].length := by
  have h := marker_counts_match_event_count sampleNow [sampleEvent] sampleHash
    (by simp) (by decide)
    (by intro e he; rw [List.mem_singleton] at he; subst he; decide)
  exact ⟨h.1, h.2.1⟩

/-- C4: `generateStats` returns `none` when no event is upcoming; when some
event is upcoming, `nextEvent` is an upcoming event that the sort
comparator (date ascending, then time-of-day ascending with missing times
as `00:00:00`) places at or before every other upcoming event; and on three
same-date events — 17:00, 09:00 and all-day, in that input order — it
returns the all-day event. -/
theorem generateStats_nextEvent_soonest :
    (∀ (today : List Char) (events : List Event),
      events.filter (isUpcoming today) = [] → (generateStats today events).nextEvent = none)
    ∧ (∀ (today : List Char) (events : List Event),
        events.filter (isUpcoming today) ≠ [] →
        ∃ e, (generateStats today events).nextEvent = some e
          ∧ e ∈ events.filter (isUpcoming today)
          ∧ ∀ x ∈ events.filter (isUpcoming today), eventLe e x = true)
    ∧ (generateStats (chars "2025-06-01") [fivePmEvent, nineAmEvent, allDayEvent]).nextEvent
        = some allDayEvent := by
  refine ⟨fun today events h => nextEvent_of_no_upcoming today events h,
    fun today events hne => nextEvent_eq_min today events hne, ?_⟩
  obtain ⟨e, hsome, hmem, hmin⟩ :=
    nextEvent_eq_min (chars "2025-06-01") [fivePmEvent, nineAmEvent, allDayEvent] (by decide)
  have hfil : [fivePmEvent, nineAmEvent, allDayEvent].filter (isUpcoming (chars "2025-06-01"))
      = [fivePmEvent, nineAmEvent, allDayEvent] := by decide
  rw [hfil] at hmem hmin
  rcases List.mem_cons.1 hmem with rfl | hmem2
  · exact absurd (hmin allDayEvent (by simp)) (by decide)
  · rcases List.mem_cons.1 hmem2 with rfl | hmem3
    · exact absurd (hmin allDayEvent (by simp)) (by decide)
    · rcases List.mem_cons.1 hmem3 with rfl | hmem4
      · exact hsome
      · simp at hmem4

/-- Witness for C4 on concrete event lists. -/
theorem generateStats_nextEvent_soonest_witness :
    (generateStats (chars "2100-01-01") [allDayEvent]).nextEvent = none
    ∧ ∃ e, (generateStats (chars "2025-06-01") [allDayEvent]).nextEvent = some e
        ∧ e ∈ [allDayEvent].filter (isUpcoming (chars "2025-06-01"))
        ∧ ∀ x ∈ [allDayEvent].filter (isUpcoming (chars "2025-06-01")), eventLe e x = true :=
  ⟨generateStats_nextEvent_soonest.1 (chars "2100-01-01") [allDayEvent] (by decide),
   generateStats_nextEvent_soonest.2.1 (chars "2025-06-01") [allDayEvent] (by decide)⟩

/-- C5: the icon-to-category mapping is total into the fixed six-member
category set (unknown icons fall back to `PERSONAL`), the icon-to-priority
mapping is total into `{1, 5, 9}`, event generation always emits a
`CATEGORIES` line from that set and a `PRIORITY` line from that set (the
embedding is total — nothing throws), and every category key produced by
`generateStats` lies in the fixed set. -/
theorem icon_mappings_total :
    (∀ icon, iconToCategory icon ∈ categorySet)
    ∧ (∀ icon, iconToPriority icon = 1 ∨ iconToPriority icon = 5 ∨ iconToPriority icon = 9)
    ∧ (∀ (cfg : ICalConfig) (now : EDateTime) (e : Event) (h : List Char),
        chars "CATEGORIES:" ++ iconToCategory e.icon ∈ generateEvent cfg now e h
        ∧ chars "PRIORITY:" ++ natChars (iconToPriority e.icon) ∈ generateEvent cfg now e h)
    ∧ (∀ (today : List Char) (events : List Event),
        ∀ kv ∈ (generateStats today events).eventsByCategory, kv.1 ∈ categorySet) :=
  ⟨iconToCategory_mem,
   iconToPriority_mem,
   fun cfg now e h => ⟨categories_line_mem cfg now e h, priority_line_mem cfg now e h⟩,
   fun today events kv hkv => statsFold_keys events [] (by simp) kv hkv⟩

/-- Witness for C5 at an unknown icon tag and a concrete stats key. -/
theorem icon_mappings_total_witness :
    iconToCategory (chars "no-such-icon") ∈ categorySet
    ∧ (iconToPriority (chars "no-such-icon") = 1 ∨ iconToPriority (chars "no-such-icon") = 5
        ∨ iconToPriority (chars "no-such-icon") = 9)
    ∧ ((chars "BUSINESS", 1) : List Char × Nat).1 ∈ categorySet :=
  ⟨icon_mappings_total.1 (chars "no-such-icon"),
   icon_mappings_total.2.1 (chars "no-such-icon"),
   icon_mappings_total.2.2.2 (chars "2025-01-01") [sampleEvent] (chars "BUSINESS", 1)
     (by decide)⟩

/-- C6 (claim is the intent; the code has no fail-fast): the constructor
accepts an empty required `prodId` without any error, and the service then
silently produces a document whose `PRODID:` line has an empty value —
which even its own `validateCalendar` accepts, because the `PRODID:`
substring is still present. -/
theorem constructor_accepts_empty_config :
    mkConfig { prodId := some ([] : List Char) } = { defaultConfig with prodId := [] }
    ∧ (validateCalendar (generateCalendar (mkConfig { prodId := some ([] : List Char) })
        sampleNow [] sampleHash)).isValid = true := by
  constructor
  · rfl
  · decide

/-- C7: two invocations under clocks frozen at the same instant produce
byte-identical documents (each equals the fixed-instant generator's
output). -/
theorem generateCalendar_frozen_clock_deterministic (cfg : ICalConfig)
    (events : List Event) (h : List Char) (t : EDateTime)
    (c₁ c₂ : Nat → EDateTime) (h1 : ∀ n, c₁ n = t) (h2 : ∀ n, c₂ n = t) :
    generateCalendarClocked cfg c₁ events h = generateCalendarClocked cfg c₂ events h
    ∧ generateCalendarClocked cfg c₁ events h = generateCalendar cfg t events h := by
  have e1 := generateCalendarClocked_frozen cfg c₁ t events h h1
  have e2 := generateCalendarClocked_frozen cfg c₂ t events h h2
  exact ⟨e1.trans e2.symm, e1⟩

/-- Witness for C7 with two (trivially) frozen clocks. -/
theorem generateCalendar_frozen_clock_deterministic_witness :
    generateCalendarClocked defaultConfig (fun _ => sampleNow) [sampleEvent] sampleHash
      = generateCalendarClocked defaultConfig (fun _ => sampleNow) [sampleEvent] sampleHash
    ∧ generateCalendarClocked defaultConfig (fun _ => sampleNow) [sampleEvent] sampleHash
      = generateCalendar defaultConfig sampleNow [sampleEvent] sampleHash :=
  generateCalendar_frozen_clock_deterministic defaultConfig [sampleEvent] sampleHash
    sampleNow (fun _ => sampleNow) (fun _ => sampleNow) (fun _ => rfl) (fun _ => rfl)

/-- C8: `validateCalendar` reports `isValid = true` exactly when its error
list is empty, and documents with identical error lists get identical
verdicts — the warnings (including line-length warnings) never affect
validity. -/
theorem validateCalendar_isValid_iff_no_errors :
    (∀ s, (validateCalendar s).isValid = true ↔ (validateCalendar s).errors = [])
    ∧ (∀ s₁ s₂, (validateCalendar s₁).errors = (validateCalendar s₂).errors →
        (validateCalendar s₁).isValid = (validateCalendar s₂).isValid) := by
  constructor
  · intro s
    rw [validate_isValid_eq]
    simp [List.length_eq_zero]
  · intro s₁ s₂ h
    rw [validate_isValid_eq, validate_isValid_eq, h]

/-- Witness for C8 at a concrete document pair. -/
theorem validateCalendar_isValid_iff_no_errors_witness :
    ((validateCalendar (chars "BEGIN:VCALENDAR")).isValid = true
      ↔ (validateCalendar (chars "BEGIN:VCALENDAR")).errors = [])
    ∧ (validateCalendar (chars "BEGIN:VCALENDAR")).isValid
        = (validateCalendar (chars "BEGIN:VCALENDAR")).isValid :=
  ⟨validateCalendar_isValid_iff_no_errors.1 (chars "BEGIN:VCALENDAR"),
   validateCalendar_isValid_iff_no_errors.2 (chars "BEGIN:VCALENDAR")
     (chars "BEGIN:VCALENDAR") rfl⟩

/-- C9 counterexample: with the user identifier `BEGIN:VEVENT`, the empty
calendar's document contains a spoofed begin marker (in
`X-WR-RELCALID:`), the VEVENT counts mismatch, and validation fails. -/
theorem empty_calendar_invalid_for_marker_hash :
    (validateCalendar (generateCalendar defaultConfig sampleNow []
      (chars "BEGIN:VEVENT"))).isValid = false := by
  decide

/-- C9 (amended): for every user identifier free of the `VEVENT` marker
fragment, the empty-event document has zero `VEVENT` blocks and passes
validation with no errors. -/
theorem empty_calendar_valid (now : EDateTime) (h : List Char) (hh : noVev h = true) :
    countOcc (chars "BEGIN:VEVENT") (generateCalendar defaultConfig now [] h) = 0
    ∧ countOcc (chars "END:VEVENT") (generateCalendar defaultConfig now [] h) = 0
    ∧ (validateCalendar (generateCalendar defaultConfig now [] h)).errors = []
    ∧ (validateCalendar (generateCalendar defaultConfig now [] h)).isValid = true := by
  have hnil : ∀ e ∈ ([] : List Event), eventSafe e = true := by intro e he; simp at he
  have hv := validateCalendar_generated (fun _ => now) [] h hh hnil
  have hb := countOcc_generateCalendarClocked (Or.inl rfl) (fun _ => now) [] h hh hnil
  have he := countOcc_generateCalendarClocked (Or.inr rfl) (fun _ => now) [] h hh hnil
  rw [generateCalendar]
  exact ⟨hb, he, hv.1, hv.2⟩

/-- Witness for C9 (amended) at a marker-free identifier. -/
theorem empty_calendar_valid_witness :
    countOcc (chars "BEGIN:VEVENT")
      (generateCalendar defaultConfig sampleNow [] sampleHash) = 0
    ∧ countOcc (chars "END:VEVENT")
      (generateCalendar defaultConfig sampleNow [] sampleHash) = 0
    ∧ (validateCalendar (generateCalendar defaultConfig sampleNow [] sampleHash)).errors = []
    ∧ (validateCalendar (generateCalendar defaultConfig sampleNow [] sampleHash)).isValid
        = true :=
  empty_calendar_valid sampleNow sampleHash (by decide)

/-- C10 counterexample: an event titled `BEGIN:VEVENT` makes the validator
count three begin markers against two end markers, so the generated
document fails its own validation. -/
theorem generated_calendar_invalid_for_marker_title :
    (validateCalendar (generateCalendar defaultConfig sampleNow [spoofBeginEvent]
      sampleHash)).isValid = false := by
  decide

/-- C10 (amended): for every event list and user identifier whose escaped
titles and descriptions, icons and identifier avoid the marker fragment
`VEVENT`, the generated document passes `validateCalendar` with an empty
error list. -/
theorem generated_calendar_validates (now : EDateTime) (events : List Event)
    (h : List Char) (hh : noVev h = true) (hev : ∀ e ∈ events, eventSafe e = true) :
    (validateCalendar (generateCalendar defaultConfig now events h)).errors = []
    ∧ (validateCalendar (generateCalendar defaultConfig now events h)).isValid = true := by
  have hv := validateCalendar_generated (fun _ => now) events h hh hev
  rw [generateCalendar]
  exact hv

/-- Witness for C10 (amended) on a one-event list. -/
theorem generated_calendar_validates_witness :
    (validateCalendar (generateCalendar defaultConfig sampleNow [sampleEvent]
      sampleHash)).errors = []
    ∧ (validateCalendar (generateCalendar defaultConfig sampleNow [sampleEvent]
      sampleHash)).isValid = true :=
  generated_calendar_validates sampleNow [sampleEvent] sampleHash (by decide)
    (by intro e he; rw [List.mem_singleton] at he; subst he; decide)

end ICal
